/-
Verification of the procurement-request core: the TOON codec
(backend/app/utils/toon.py) and the financial calculation / validation
engine (backend/app/services/validation_service.py,
backend/app/models/order_line.py, backend/app/models/request.py).

Modelling conventions:
* Python `Decimal` values are embedded as `ℚ` (exact decimal arithmetic is a
  subring of ℚ; `Decimal(str(x))` on a `Decimal` is the identity).
  `Decimal.quantize(Decimal("0.01"), ROUND_HALF_UP)` is `quantize2`.
* Python strings are embedded as `List Char`.  String-level library calls are
  modelled for their documented behaviour on ASCII input: `str.strip` removes
  the six ASCII whitespace characters, `str.upper` maps characters through
  `Char.toUpper`, `re`'s `\d` is the ASCII digit class, `int()`/`float()`
  accept ASCII literals (Python additionally accepts non-ASCII Unicode digits;
  no claim here depends on non-ASCII input).
* Validation error messages are represented by the inductive `VErr`, carrying
  exactly the data interpolated into the Python f-strings.
* The recursive decoder is embedded with an explicit fuel argument (so that it
  is structurally recursive and kernel-executable); `decode_value`,
  `toon_to_dict` and `toon_to_list` apply fuel that is proved sufficient
  (`decodeF_fuel_irrelevant`), so the fuelled definitions satisfy exactly the
  source's recursion equations (`decode_value_eq` etc.).
* A Python float produced by `float(lit)` is represented as `Value.float lit`
  (binary floating point itself is outside the embedding; no claim below
  depends on float identity).
-/
import Mathlib

/-! ## Decimal arithmetic (decimal module as used by the engine) -/

/-- `Decimal.quantize(Decimal("0.01"), rounding=ROUND_HALF_UP)`: round to two
decimal places, to nearest, ties away from zero. -/
def quantize2 (q : ℚ) : ℚ :=
  (((if 0 ≤ q * 100 then ⌊q * 100 + 1/2⌋ else -⌊-(q * 100) + 1/2⌋) : ℤ) : ℚ) / 100

/-- Python truthiness of an `Optional[Decimal]`: `None` and `Decimal("0")` are
falsy, every nonzero value is truthy. -/
def pyTruthy : Option ℚ → Bool
  | none => false
  | some q => q != 0

/-- Python `abs` on `Decimal`. -/
def pyAbs (q : ℚ) : ℚ := if q < 0 then -q else q

/-! ## Python string helpers shared by the engine and the codec -/

/-- The characters removed by `str.strip()` (ASCII whitespace). -/
def isPyWs (c : Char) : Bool :=
  c = ' ' || c = '\t' || c = '\n' || c = '\r' || c = '\x0b' || c = '\x0c'

/-- Python `str.strip()`. -/
def pyStrip (s : List Char) : List Char :=
  ((s.dropWhile isPyWs).reverse.dropWhile isPyWs).reverse

/-! ## ValidationService (backend/app/services/validation_service.py) -/

/-- Status values for procurement requests (`RequestStatus`).  `open` is a
Lean keyword, hence the constructor `open_`. -/
inductive RequestStatus where
  | open_
  | in_progress
  | closed
deriving DecidableEq

/-- `VALID_STATUS_TRANSITIONS` (backend/app/models/request.py); the model is
total, matching `dict.get(status, [])` at the use site. -/
def VALID_STATUS_TRANSITIONS : RequestStatus → List RequestStatus
  | .open_ => [.in_progress, .closed]
  | .in_progress => [.closed, .open_]
  | .closed => []

/-- The validation error messages produced by `ValidationService`, with the
data each f-string interpolates. -/
inductive VErr where
  | vatRequired
  | vatInvalidFormat
  | totalMismatch (expected provided : ℚ)
  | requestTotalMismatch (expected provided : ℚ)
  | alreadyInStatus (s : RequestStatus)
  | cannotTransition (source target : RequestStatus)
  | atLeastOneLineRequired
  | unitPriceNegative (i : ℕ)
  | amountNotPositive (i : ℕ)
  | descriptionRequired (i : ℕ)
deriving DecidableEq

/-- `VAT_ID_PATTERN = re.compile(r"^DE\d{9}$")`, with `\d` as ASCII digits. -/
def VAT_ID_PATTERN (v : List Char) : Bool :=
  match v with
  | c1 :: c2 :: ds =>
    decide (c1 = 'D') && decide (c2 = 'E') && decide (ds.length = 9) &&
      ds.all Char.isDigit
  | _ => false

/-- `ValidationService.validate_vat_id`. -/
def validate_vat_id (vat_id : List Char) : Bool × Option VErr :=
  if vat_id.isEmpty then (false, some .vatRequired)
  else
    let v := (pyStrip vat_id).map Char.toUpper
    if VAT_ID_PATTERN v then (true, none) else (false, some .vatInvalidFormat)

/-- `ValidationService.calculate_order_line_total`. -/
def calculate_order_line_total (unit_price amount : ℚ)
    (discount_percent : Option ℚ) : ℚ :=
  let total0 := unit_price * amount
  let total1 :=
    if pyTruthy discount_percent then total0 * (1 - discount_percent.getD 0 / 100)
    else total0
  quantize2 total1

/-- `ValidationService.validate_order_line_total`. -/
def validate_order_line_total (unit_price amount provided_total tolerance : ℚ) :
    Bool × Option VErr :=
  let calculated := calculate_order_line_total unit_price amount none
  let difference := pyAbs (calculated - provided_total)
  if tolerance < difference then (false, some (.totalMismatch calculated provided_total))
  else (true, none)

/-- `OrderLineCreate` (backend/app/schemas/order_line.py), restricted to the
fields the engine reads. -/
structure OrderLineCreate where
  line_type : List Char
  description : List Char
  unit_price : ℚ
  amount : ℚ
  discount_percent : Option ℚ

/-- `ValidationService.calculate_request_total`. -/
def calculate_request_total (order_lines : List OrderLineCreate) : ℚ :=
  quantize2 (order_lines.foldl
    (fun total line =>
      if line.line_type = "standard".data then
        total + calculate_order_line_total line.unit_price line.amount
          line.discount_percent
      else total)
    0)

/-- `ValidationService.validate_status_transition`. -/
def validate_status_transition (current_status new_status : RequestStatus) :
    Bool × Option VErr :=
  if current_status = new_status then (false, some (.alreadyInStatus new_status))
  else if new_status ∈ VALID_STATUS_TRANSITIONS current_status then (true, none)
  else (false, some (.cannotTransition current_status new_status))

/-- The three per-line checks of `ValidationService.validate_order_lines`,
for the line at 1-based index `i`, in source order. -/
def lineErrors (i : ℕ) (line : OrderLineCreate) : List VErr :=
  (if line.unit_price < 0 then [.unitPriceNegative i] else []) ++
    (if line.amount ≤ 0 then [.amountNotPositive i] else []) ++
      (if (pyStrip line.description).isEmpty then [.descriptionRequired i] else [])

/-- The `for i, line in enumerate(order_lines, 1)` accumulation loop of
`validate_order_lines`. -/
def collectErrors : ℕ → List OrderLineCreate → List VErr
  | _, [] => []
  | i, line :: rest => lineErrors i line ++ collectErrors (i + 1) rest

/-- `ValidationService.validate_order_lines`. -/
def validate_order_lines (order_lines : List OrderLineCreate) : Bool × List VErr :=
  match order_lines with
  | [] => (false, [.atLeastOneLineRequired])
  | _ =>
    let errors := collectErrors 1 order_lines
    (errors.isEmpty, errors)

/-- `OrderLine.calculate_total` (backend/app/models/order_line.py): the
model-level line total with both discount kinds, no rounding, and Python
truthiness on the two optional discounts. -/
def calculate_total (unit_price amount : ℚ)
    (discount_percent discount_amount : Option ℚ) : ℚ :=
  let subtotal := unit_price * amount
  if pyTruthy discount_amount then subtotal - discount_amount.getD 0
  else if pyTruthy discount_percent then
    subtotal - subtotal * (discount_percent.getD 0 / 100)
  else subtotal

/-! ## Spec-side definitions (from the specification's words, for refinement
claims) -/

/-- Modelled from the spec: the integer nearest to `x`, ties away from zero
("round-half-up: a tie rounds away from zero"). -/
def tiesAway (x : ℚ) : ℤ :=
  if 0 ≤ x then (if Int.fract x < 1/2 then ⌊x⌋ else ⌊x⌋ + 1)
  else -(if Int.fract (-x) < 1/2 then ⌊-x⌋ else ⌊-x⌋ + 1)

/-- Modelled from the spec: "rounded to 2 decimal places, round-half-up",
applied once to an exact rational. -/
def specRound2 (q : ℚ) : ℚ := ((tiesAway (q * 100) : ℤ) : ℚ) / 100

/-- Modelled from the spec: "`DE` followed by exactly 9 ASCII digits". -/
def specVatOk (v : List Char) : Prop :=
  v.length = 11 ∧ v.take 2 = "DE".data ∧ ∀ c ∈ v.drop 2, c.isDigit

/-- Modelled from the spec: an order line violating one of the three per-line
rules (negative unit price, non-positive amount, blank description). -/
def lineInvalid (line : OrderLineCreate) : Prop :=
  line.unit_price < 0 ∨ line.amount ≤ 0 ∨ pyStrip line.description = []

/-! ## TOON codec: value model (backend/app/utils/toon.py) -/

/-- The JSON-like values the codec trades in.  `float lit` records the literal
accepted by Python `float(lit)` (see the header comment). -/
inductive Value where
  | null
  | bool (b : Bool)
  | int (n : Int)
  | float (lit : List Char)
  | str (s : List Char)
  | arr (xs : List Value)
  | obj (kvs : List (List Char × Value))

/-- `SPECIAL_CHARS = set('|:;{}[]"\n\r\t')`. -/
def SPECIAL_CHARS : List Char :=
  ['|', ':', ';', '\x7b', '\x7d', '[', ']', '"', '\n', '\r', '\t']

/-- `needs_quoting`. -/
def needs_quoting (value : List Char) : Bool :=
  value.isEmpty || value.any (fun c => c ∈ SPECIAL_CHARS)

/-- Python `str.replace(old, new)` for a one-character pattern: each
occurrence is replaced independently, so it is a character-wise expansion. -/
def replaceChar (old : Char) (new : List Char) (s : List Char) : List Char :=
  s.flatMap (fun c => if c = old then new else [c])

/-- `quote_string`: `value.replace('\\', '\\\\').replace('"', '\\"')` inside
double quotes. -/
def quote_string (value : List Char) : List Char :=
  '"' :: (replaceChar '"' ['\\', '"'] (replaceChar '\\' ['\\', '\\'] value) ++ ['"'])

/-- Python `str.replace(old, new)` for a two-character pattern `a b` and a
one-character replacement `r`: leftmost, non-overlapping. -/
def replacePair (a b r : Char) : List Char → List Char
  | [] => []
  | [c] => [c]
  | c1 :: c2 :: rest =>
    if c1 = a ∧ c2 = b then r :: replacePair a b r rest
    else c1 :: replacePair a b r (c2 :: rest)

/-- Per-character effect of `quote_string`'s two escape passes (proof-side
helper): a backslash doubles, a quote gains a backslash, all else is kept. -/
def qUnit (c : Char) : List Char :=
  if c = '\\' then ['\\', '\\'] else if c = '"' then ['\\', '"'] else [c]

/-- Per-character state after `unquote_string`'s first replacement pass
(proof-side helper): backslashes still doubled, quotes bare. -/
def mUnit (c : Char) : List Char :=
  if c = '\\' then ['\\', '\\'] else [c]

/-- Python `s.startswith(c)` for a single character. -/
def startsWithC (c : Char) (s : List Char) : Bool := s.head? = some c

/-- Python `s.endswith(c)` for a single character. -/
def endsWithC (c : Char) (s : List Char) : Bool := s.getLast? = some c

/-- `unquote_string`: strip the outer quotes of `value[1:-1]` and apply
`.replace('\\"', '"').replace('\\\\', '\\')`. -/
def unquote_string (value : List Char) : List Char :=
  if startsWithC '"' value ∧ endsWithC '"' value then
    replacePair '\\' '\\' '\\' (replacePair '\\' '"' '"' ((value.drop 1).dropLast))
  else value

/-! ## TOON codec: number literals -/

/-- The ASCII digit character for `n < 10` (as produced by Python `str`). -/
def digitChar : Nat → Char
  | 0 => '0' | 1 => '1' | 2 => '2' | 3 => '3' | 4 => '4'
  | 5 => '5' | 6 => '6' | 7 => '7' | 8 => '8' | _ => '9'

/-- Fuelled digit expansion of a natural number, most significant first. -/
def natCharsF : Nat → Nat → List Char
  | 0, _ => []
  | fuel + 1, n =>
    if n < 10 then [digitChar n]
    else natCharsF fuel (n / 10) ++ [digitChar (n % 10)]

/-- Python `str` of a natural number. -/
def natChars (n : Nat) : List Char := natCharsF (n + 1) n

/-- Python `str` of an `int`: an optional minus sign and decimal digits. -/
def intChars (n : Int) : List Char :=
  if n < 0 then '-' :: natChars n.natAbs else natChars n.toNat

/-- Digit-string body of Python `int()`: ASCII digits with single underscores
allowed between digits only.  `acc` is the value of the digits already read. -/
def parseDigitsUAux : Nat → List Char → Option Nat
  | acc, [] => some acc
  | acc, c :: rest =>
    if c.isDigit then parseDigitsUAux (10 * acc + (c.toNat - 48)) rest
    else if c = '_' then
      match rest with
      | [] => none
      | d :: rest2 =>
        if d.isDigit then parseDigitsUAux (10 * acc + (d.toNat - 48)) rest2
        else none
    else none

/-- A nonempty digit string (leading digit required, underscores between
digits), as accepted by Python `int()` after the sign. -/
def parseDigitsU : List Char → Option Nat
  | [] => none
  | c :: rest => if c.isDigit then parseDigitsUAux (c.toNat - 48) rest else none

/-- Python `int(s)` on ASCII input: surrounding whitespace, an optional sign,
then a digit string. -/
def pyParseInt (s : List Char) : Option Int :=
  match pyStrip s with
  | [] => none
  | c :: rest =>
    if c = '+' then (parseDigitsU rest).map Int.ofNat
    else if c = '-' then (parseDigitsU rest).map (fun n => -(Int.ofNat n))
    else (parseDigitsU (c :: rest)).map Int.ofNat

/-- Split a list at the first occurrence of `t`: the prefix before it and,
when present, the remainder after it. -/
def splitAtFirst (t : Char) : List Char → List Char × Option (List Char)
  | [] => ([], none)
  | c :: rest =>
    if c = t then ([], some rest)
    else
      let p := splitAtFirst t rest
      (c :: p.1, p.2)

/-- Split a list at the first exponent marker `e`/`E`. -/
def splitAtExp : List Char → List Char × Option (List Char)
  | [] => ([], none)
  | c :: rest =>
    if c = 'e' ∨ c = 'E' then ([], some rest)
    else
      let p := splitAtExp rest
      (c :: p.1, p.2)

/-- A possibly-empty digit group inside a float literal. -/
def digitsGroupOk (g : List Char) : Bool := g.isEmpty || (parseDigitsU g).isSome

/-- Whether Python `float(s)` accepts `s` (ASCII input): optional sign, then
`inf`/`infinity`/`nan` case-insensitively, or a decimal mantissa with an
optional exponent. -/
def pyFloatParses (s : List Char) : Bool :=
  let t := pyStrip s
  let t2 := match t with
    | c :: rest => if c = '+' ∨ c = '-' then rest else t
    | [] => t
  let low := t2.map Char.toLower
  if low = "inf".data ∨ low = "infinity".data ∨ low = "nan".data then true
  else
    let me := splitAtExp t2
    let ifp := splitAtFirst '.' me.1
    let mantOk :=
      match ifp.2 with
      | none => (parseDigitsU ifp.1).isSome
      | some fp => (digitsGroupOk ifp.1 && digitsGroupOk fp) &&
          !(ifp.1.isEmpty && fp.isEmpty)
    let expOk :=
      match me.2 with
      | none => true
      | some ex =>
        let ex2 := match ex with
          | c :: rest => if c = '+' ∨ c = '-' then rest else ex
          | [] => ex
        (parseDigitsU ex2).isSome
    mantOk && expOk

/-! ## TOON codec: encoder -/

/-- Python `sep.join(parts)` for a one-character separator. -/
def joinSep (sep : Char) : List (List Char) → List Char
  | [] => []
  | [x] => x
  | x :: xs => x ++ sep :: joinSep sep xs

/-- `encode_value` (the `attach`es only carry membership facts for the
termination measure; the plain recursion equations are proved as
`encode_value_obj` / `encode_value_arr` below). -/
def encode_value : Value → List Char
  | .null => "null".data
  | .bool b => if b then "true".data else "false".data
  | .int n => intChars n
  | .float lit => lit
  | .str s => if needs_quoting s then quote_string s else s
  | .obj kvs =>
    '\x7b' :: (joinSep '|'
      (kvs.attach.map (fun kv => kv.1.1 ++ ':' :: encode_value kv.1.2)) ++ ['\x7d'])
  | .arr xs =>
    '[' :: (joinSep ';' (xs.attach.map (fun x => encode_value x.1)) ++ [']'])
termination_by v => sizeOf v
decreasing_by
  · have h1 := List.sizeOf_lt_of_mem kv.2
    have h2 : sizeOf kv.1.2 < sizeOf kv.1 := by
      obtain ⟨a, b⟩ := kv.1
      simp only [Prod.mk.sizeOf_spec]
      omega
    simp only [Value.obj.sizeOf_spec]
    omega
  · have h1 := List.sizeOf_lt_of_mem x.2
    simp only [Value.arr.sizeOf_spec]
    omega

/-- `dict_to_toon`: `"|".join(f"{key}:{encoded_value}")`. -/
def dict_to_toon (kvs : List (List Char × Value)) : List Char :=
  joinSep '|' (kvs.map (fun kv => kv.1 ++ ':' :: encode_value kv.2))

/-- `list_to_toon`: `";".join(encode_value(item))`. -/
def list_to_toon (xs : List Value) : List Char :=
  joinSep ';' (xs.map encode_value)

/-- `json_to_toon` on an already-parsed value (the `str` branch of the Python
function merely `json.loads`es its input first). -/
def json_to_toon : Value → List Char
  | .obj kvs => dict_to_toon kvs
  | .arr xs => list_to_toon xs
  | v => encode_value v

/-! ## TOON codec: delimiter-aware splitting -/

/-- The loop state of `split_toon_pairs`: accumulated parts, the current
part, the two nesting depths (Python lets them go negative) and the quote /
escape flags. -/
structure SplitState where
  parts : List (List Char)
  current : List Char
  depth_brace : Int
  depth_bracket : Int
  in_quotes : Bool
  escape_next : Bool

/-- One iteration of the `for char in toon_str` loop of `split_toon_pairs`,
with the branches in source order (escape consumption, backslash, quote
toggle, inside-quotes, braces, brackets, top-level delimiter, default). -/
def splitStep (delim : Char) (st : SplitState) (c : Char) : SplitState :=
  if st.escape_next then
    { st with current := st.current ++ [c], escape_next := false }
  else if c = '\\' then
    { st with current := st.current ++ [c], escape_next := true }
  else if c = '"' then
    { st with in_quotes := !st.in_quotes, current := st.current ++ [c] }
  else if st.in_quotes then
    { st with current := st.current ++ [c] }
  else if c = '\x7b' then
    { st with depth_brace := st.depth_brace + 1, current := st.current ++ [c] }
  else if c = '\x7d' then
    { st with depth_brace := st.depth_brace - 1, current := st.current ++ [c] }
  else if c = '[' then
    { st with depth_bracket := st.depth_bracket + 1, current := st.current ++ [c] }
  else if c = ']' then
    { st with depth_bracket := st.depth_bracket - 1, current := st.current ++ [c] }
  else if c = delim ∧ st.depth_brace = 0 ∧ st.depth_bracket = 0 then
    { st with parts := st.parts ++ [st.current], current := [] }
  else
    { st with current := st.current ++ [c] }

/-- The initial state of `split_toon_pairs`. -/
def initSplit : SplitState := ⟨[], [], 0, 0, false, false⟩

/-- `split_toon_pairs`: split by `delim` outside nesting and quotes; a
nonempty trailing part is flushed. -/
def split_toon_pairs (toon_str : List Char) (delim : Char) : List (List Char) :=
  let st := toon_str.foldl (splitStep delim) initSplit
  if st.current.isEmpty then st.parts else st.parts ++ [st.current]

/-- The `for char in toon_str` loop of `split_toon_pairs` run from an
arbitrary state (proof-side helper for the splitting lemmas). -/
def runSplit (delim : Char) (st : SplitState) (t : List Char) : SplitState :=
  t.foldl (splitStep delim) st

/-! ## TOON codec: decoder -/

/-- `key, _, value = pair.partition(':')` followed by `key = key.strip()` and
the `if ':' not in pair: continue` / `if key:` guards of `toon_to_dict`:
`none` when the pair contributes nothing. -/
def pairKV (pair : List Char) : Option (List Char × List Char) :=
  match splitAtFirst ':' pair with
  | (_, none) => none
  | (k, some v) =>
    let ks := pyStrip k
    if ks.isEmpty then none else some (ks, v)

/-- `result[key] = value` on a Python dict represented as an ordered
association list: an existing key keeps its position and gets the new value,
a new key is appended. -/
def upsert (k : List Char) (v : Value) :
    List (List Char × Value) → List (List Char × Value)
  | [] => [(k, v)]
  | kv :: rest => if kv.1 = k then (k, v) :: rest else kv :: upsert k v rest

/-- Fold the decoded (or skipped) pairs of `toon_to_dict` into the result
dict, in order. -/
def buildDict (l : List (Option (List Char × Value))) :
    List (List Char × Value) :=
  l.foldl (fun acc o => match o with | none => acc | some kv => upsert kv.1 kv.2 acc) []

mutual

/-- Fuelled body of `decode_value` (mutual with `dictF`/`listF`).  The fuel
only caps recursion depth; `2*length+1` is always sufficient, see
`decodeF_fuel_irrelevant` and the recursion equations `decode_value_eq`,
`toon_to_dict_eq`, `toon_to_list_eq` proved below. -/
def decodeF : Nat → List Char → Value
  | 0, _ => .str []
  | fuel + 1, s =>
    let v := pyStrip s
    if v.isEmpty then .str []
    else if v = "null".data then .null
    else if v = "true".data then .bool true
    else if v = "false".data then .bool false
    else if startsWithC '"' v ∧ endsWithC '"' v then .str (unquote_string v)
    else if startsWithC '\x7b' v ∧ endsWithC '\x7d' v then
      .obj (dictF fuel ((v.drop 1).dropLast))
    else if startsWithC '[' v ∧ endsWithC ']' v then
      .arr (listF fuel ((v.drop 1).dropLast))
    else if '.' ∈ v then (if pyFloatParses v then .float v else .str v)
    else
      match pyParseInt v with
      | some n => .int n
      | none => .str v
termination_by structural fuel _ => fuel

/-- Fuelled body of `toon_to_dict`. -/
def dictF : Nat → List Char → List (List Char × Value)
  | 0, _ => []
  | fuel + 1, s =>
    if (pyStrip s).isEmpty then []
    else
      buildDict ((split_toon_pairs s '|').map (fun pair =>
        match pairKV pair with
        | none => none
        | some kv => some (kv.1, decodeF fuel kv.2)))
termination_by structural fuel _ => fuel

/-- Fuelled body of `toon_to_list`. -/
def listF : Nat → List Char → List Value
  | 0, _ => []
  | fuel + 1, s =>
    if (pyStrip s).isEmpty then []
    else
      ((split_toon_pairs s ';').filter (fun item => !(pyStrip item).isEmpty)).map
        (fun item => decodeF fuel item)
termination_by structural fuel _ => fuel

end

/-- `decode_value`. -/
def decode_value (s : List Char) : Value := decodeF (2 * s.length + 1) s

/-- `toon_to_dict`. -/
def toon_to_dict (s : List Char) : List (List Char × Value) :=
  dictF (2 * s.length + 2) s

/-- `toon_to_list`. -/
def toon_to_list (s : List Char) : List Value := listF (2 * s.length + 2) s

/-- `toon_to_json`. -/
def toon_to_json (toon_str : List Char) : Value :=
  let t := pyStrip toon_str
  if startsWithC '[' t ∧ endsWithC ']' t then .arr (toon_to_list ((t.drop 1).dropLast))
  else if startsWithC '\x7b' t ∧ endsWithC '\x7d' t then
    .obj (toon_to_dict ((t.drop 1).dropLast))
  else .obj (toon_to_dict t)

/-! ## Safe values (spec-side, for the amended round-trip claim) -/

/-- A key emitted verbatim by `dict_to_toon` that survives splitting,
partitioning and stripping: nonempty, no reserved characters, no backslash,
unchanged by `strip`. -/
def SafeKey (k : List Char) : Prop :=
  k ≠ [] ∧ (∀ c ∈ k, c ∉ SPECIAL_CHARS ∧ c ≠ '\\') ∧ pyStrip k = k

/-- Values for which the amended round-trip theorem holds.  Strings that need
quoting always round-trip; a string emitted bare must decode to itself (it is
not a `null`/`true`/`false` literal, not a number literal, carries no
surrounding whitespace) and must not end in a backslash (a trailing
backslash would escape the following delimiter).  Keys must be `SafeKey` and
duplicate-free; floats are outside the embedding. -/
inductive Safe : Value → Prop
  | null : Safe .null
  | bool (b : Bool) : Safe (.bool b)
  | int (n : Int) : Safe (.int n)
  | str (s : List Char)
      (h : needs_quoting s = false →
        decode_value s = .str s ∧ pyStrip s = s ∧ s.getLast? ≠ some '\\') :
      Safe (.str s)
  | arr (xs : List Value) (h : ∀ v ∈ xs, Safe v) : Safe (.arr xs)
  | obj (kvs : List (List Char × Value))
      (hnd : (kvs.map Prod.fst).Nodup)
      (hk : ∀ kv ∈ kvs, SafeKey kv.1)
      (hv : ∀ kv ∈ kvs, Safe kv.2) :
      Safe (.obj kvs)


/-! # Theorems -/

/-! ## Rounding: the engine's quantize is the spec's round-half-up -/

theorem floor_add_half (x : ℚ) :
    ⌊x + 1/2⌋ = if Int.fract x < 1/2 then ⌊x⌋ else ⌊x⌋ + 1 := by
  have h0 : (0 : ℚ) ≤ Int.fract x := Int.fract_nonneg x
  have h1 : Int.fract x < 1 := Int.fract_lt_one x
  have hx : x + 1/2 = (⌊x⌋ : ℚ) + (Int.fract x + 1/2) := by
    have := Int.floor_add_fract x
    linarith
  rw [hx, Int.floor_int_add]
  by_cases h : Int.fract x < 1/2
  · have hz : ⌊Int.fract x + 1/2⌋ = 0 := by
      rw [Int.floor_eq_iff]
      push_cast
      constructor <;> linarith
    rw [if_pos h, hz, add_zero]
  · have hz : ⌊Int.fract x + 1/2⌋ = 1 := by
      rw [Int.floor_eq_iff]
      push_cast
      constructor <;> linarith
    rw [if_neg h, hz]

theorem quantize2_eq_specRound2 (q : ℚ) : quantize2 q = specRound2 q := by
  unfold quantize2 specRound2 tiesAway
  by_cases h : 0 ≤ q * 100
  · rw [if_pos h, if_pos h, floor_add_half]
  · rw [if_neg h, if_neg h, floor_add_half]

/-- C5.  Round-half-up at 2 decimals: `calculate_order_line_total` computes
the exact rational `unit_price * amount * (1 - discount/100)` and rounds it
once to 2 decimal places with ties away from zero (`specRound2`, written from
the spec's words); in particular `computeLineTotal(10.005, 1) = 10.01`. -/
theorem C5_round_half_up :
    calculate_order_line_total (10.005 : ℚ) 1 none = (10.01 : ℚ) ∧
    (∀ up am : ℚ, ∀ dp : Option ℚ,
      calculate_order_line_total up am dp =
        specRound2 (up * am * (1 - dp.getD 0 / 100))) := by
  constructor
  · norm_num [calculate_order_line_total, pyTruthy, quantize2]
  · intro up am dp
    rw [← quantize2_eq_specRound2]
    match dp with
    | none =>
      simp only [calculate_order_line_total, pyTruthy, Bool.false_eq_true, if_false,
        Option.getD_none]
      ring_nf
    | some d =>
      by_cases hd : d = 0
      · subst hd
        have ht : pyTruthy (some (0 : ℚ)) = false := by simp [pyTruthy]
        simp only [calculate_order_line_total, ht, Bool.false_eq_true, if_false,
          Option.getD_some]
        ring_nf
      · have ht : pyTruthy (some d) = true := by simp [pyTruthy, bne_iff_ne, hd]
        simp only [calculate_order_line_total, ht, if_true, Option.getD_some]

/-! ## Discount precedence (OrderLine.calculate_total) -/

/-- C2, counterexample.  The claim says that whenever both discounts are
supplied the amount wins over the percent; but Python truthiness treats a
supplied `discount_amount` of `0` as absent, so the percent branch fires:
the code returns `100` where the claim demands `100 * 2 - 0 = 200`. -/
theorem C2_discount_precedence_counterexample :
    calculate_total 100 2 (some 50) (some 0) = 100 ∧
      (100 : ℚ) ≠ 100 * 2 - 0 := by
  constructor
  · norm_num [calculate_total, pyTruthy]
  · norm_num

/-- C2, amended.  When both discounts are supplied and `discount_amount` is
nonzero, the amount is subtracted directly and the percent is ignored (the
claim's concrete instance `200 - 30 = 170` holds); a supplied-but-zero
`discount_amount` is falsy in Python and falls through to the percent
branch. -/
theorem C2_discount_precedence :
    (∀ up am : ℚ, ∀ dp : Option ℚ, ∀ da : ℚ, da ≠ 0 →
      calculate_total up am dp (some da) = up * am - da) ∧
    calculate_total 100 2 (some 50) (some 30) = 170 := by
  constructor
  · intro up am dp da hda
    have ht : pyTruthy (some da) = true := by simp [pyTruthy, bne_iff_ne, hda]
    simp only [calculate_total, ht, if_true, Option.getD_some]
  · norm_num [calculate_total, pyTruthy]

/-- Witness for `C2_discount_precedence`. -/
theorem C2_discount_precedence_witness :
    calculate_total 3 4 (some 10) (some 5) = 3 * 4 - 5 :=
  C2_discount_precedence.1 3 4 (some 10) 5 (by norm_num)

/-! ## Standard-only aggregation -/

theorem request_total_eq_filter (lines : List OrderLineCreate) :
    calculate_request_total lines =
      quantize2 (((lines.filter (fun l => l.line_type = "standard".data)).map
        (fun l => calculate_order_line_total l.unit_price l.amount
          l.discount_percent)).sum) := by
  unfold calculate_request_total
  congr 1
  suffices h : ∀ a : ℚ, lines.foldl
      (fun total line =>
        if line.line_type = "standard".data then
          total + calculate_order_line_total line.unit_price line.amount
            line.discount_percent
        else total) a =
      a + ((lines.filter (fun l => l.line_type = "standard".data)).map
        (fun l => calculate_order_line_total l.unit_price l.amount
          l.discount_percent)).sum by
    rw [h 0, zero_add]
  induction lines with
  | nil => simp
  | cons l ls ih =>
    intro a
    by_cases h : l.line_type = "standard".data
    · rw [List.foldl_cons, if_pos h, ih, List.filter_cons_of_pos (by simpa using h),
        List.map_cons, List.sum_cons]
      ring
    · rw [List.foldl_cons, if_neg h, ih, List.filter_cons_of_neg (by simpa using h)]

/-- C3.  `calculate_request_total` is the 2-decimal rounding of the sum of
the per-line (discounted) totals of exactly the `standard` lines; the claim's
concrete instance: one standard line of 50.00 plus an alternative line of
1000.00 and an optional line of 500.00 totals 50.00. -/
theorem C3_standard_only_aggregation :
    (∀ lines : List OrderLineCreate,
      calculate_request_total lines =
        quantize2 (((lines.filter (fun l => l.line_type = "standard".data)).map
          (fun l => calculate_order_line_total l.unit_price l.amount
            l.discount_percent)).sum)) ∧
    calculate_request_total
      [⟨"standard".data, "a".data, 50, 1, none⟩,
       ⟨"alternative".data, "b".data, 1000, 1, none⟩,
       ⟨"optional".data, "c".data, 500, 1, none⟩] = 50 := by
  refine ⟨request_total_eq_filter, ?_⟩
  rw [request_total_eq_filter]
  rw [List.filter_cons_of_pos (by decide), List.filter_cons_of_neg (by decide),
    List.filter_cons_of_neg (by decide), List.filter_nil]
  norm_num [calculate_order_line_total, pyTruthy, quantize2]

/-! ## Status transitions -/

/-- C4.  `validate_status_transition` accepts exactly the pairs with
`current ≠ requested` and `requested` in the allowed-set of `current`; every
rejection carries an error message; and the transition table is
`open → [in_progress, closed]`, `in_progress → [closed, open]`,
`closed → []`. -/
theorem C4_status_transitions :
    (∀ c n : RequestStatus,
      ((validate_status_transition c n).1 = true ↔
        c ≠ n ∧ n ∈ VALID_STATUS_TRANSITIONS c) ∧
      (validate_status_transition c n).2.isSome = !(validate_status_transition c n).1) ∧
    VALID_STATUS_TRANSITIONS .open_ = [.in_progress, .closed] ∧
    VALID_STATUS_TRANSITIONS .in_progress = [.closed, .open_] ∧
    VALID_STATUS_TRANSITIONS .closed = [] := by
  refine ⟨fun c n => ?_, rfl, rfl, rfl⟩
  cases c <;> cases n <;> exact ⟨by decide, by decide⟩

/-! ## VAT-ID validation -/

theorem vat_pattern_iff (v : List Char) : VAT_ID_PATTERN v = true ↔ specVatOk v := by
  match v with
  | [] => simp [VAT_ID_PATTERN, specVatOk]
  | [c] => simp [VAT_ID_PATTERN, specVatOk]
  | c1 :: c2 :: ds =>
    show (decide (c1 = 'D') && decide (c2 = 'E') && decide (ds.length = 9) &&
      ds.all Char.isDigit) = true ↔ _
    simp only [specVatOk, Bool.and_eq_true, decide_eq_true_eq, List.all_eq_true,
      List.length_cons, List.take, List.drop]
    constructor
    · rintro ⟨⟨⟨h1, h2⟩, h3⟩, h4⟩
      subst h1; subst h2
      refine ⟨by omega, rfl, h4⟩
    · rintro ⟨h1, h2, h3⟩
      have : c1 = 'D' ∧ c2 = 'E' := by
        have := h2
        simp only [List.take_succ_cons, List.take_zero] at this
        cases this
        constructor <;> rfl
      refine ⟨⟨⟨this.1, this.2⟩, by omega⟩, h3⟩

/-- C6.  `validate_vat_id` accepts exactly the inputs that are nonempty and
whose strip-and-uppercase normalisation matches `DE` + 9 ASCII digits
(`specVatOk`, written from the spec's words); the spec's four concrete
instances hold, and empty input is invalid. -/
theorem C6_vat_validation :
    (∀ s : List Char,
      (validate_vat_id s).1 = true ↔
        s ≠ [] ∧ specVatOk ((pyStrip s).map Char.toUpper)) ∧
    (validate_vat_id "DE123456789".data).1 = true ∧
    (validate_vat_id "de123456789".data).1 = true ∧
    (validate_vat_id "DE12345678".data).1 = false ∧
    (validate_vat_id "FR123456789".data).1 = false ∧
    (validate_vat_id []).1 = false := by
  refine ⟨fun s => ?_, by decide, by decide, by decide, by decide, rfl⟩
  unfold validate_vat_id
  by_cases h : s.isEmpty
  · simp only [h, if_true]
    simp only [List.isEmpty_iff] at h
    simp [h]
  · simp only [h, Bool.false_eq_true, if_false]
    simp only [List.isEmpty_iff] at h
    by_cases hp : VAT_ID_PATTERN ((pyStrip s).map Char.toUpper) = true
    · simp only [hp, if_true]
      simp only [vat_pattern_iff] at hp
      simp [h, hp]
    · simp only [Bool.not_eq_true] at hp
      simp only [hp, Bool.false_eq_true, if_false]
      simp only [Bool.false_eq_true, false_iff, not_and]
      intro _
      rw [← vat_pattern_iff]
      simp [hp]

/-! ## Tolerance validation ignores discounts -/

/-- C10.  `validate_order_line_total` recomputes the reference total with no
discount (`calculate_order_line_total up am none = quantize2 (up * am)`) and
accepts exactly when `|recomputed - provided| ≤ tolerance`; hence a provided
total that correctly reflects a 30.00 line discount (200 - 30 = 170) is
rejected at the default tolerance 0.01. -/
theorem C10_tolerance_ignores_discounts :
    (∀ up am pt tol : ℚ,
      (validate_order_line_total up am pt tol).1 = true ↔
        pyAbs (calculate_order_line_total up am none - pt) ≤ tol) ∧
    (∀ up am : ℚ, calculate_order_line_total up am none = quantize2 (up * am)) ∧
    (validate_order_line_total 100 2 170 (1/100)).1 = false := by
  refine ⟨fun up am pt tol => ?_, fun up am => rfl, ?_⟩
  · unfold validate_order_line_total
    by_cases h : tol < pyAbs (calculate_order_line_total up am none - pt)
    · simp [h, not_le]
    · simp only [h, if_false]
      simp only [not_lt] at h
      simp [h]
  · have h200 : calculate_order_line_total 100 2 none = 200 := by
      norm_num [calculate_order_line_total, pyTruthy, quantize2]
    unfold validate_order_line_total
    rw [h200]
    norm_num [pyAbs]

/-! ## Order-line validation -/

theorem lineErrors_nil_iff (i : ℕ) (l : OrderLineCreate) :
    lineErrors i l = [] ↔ ¬ lineInvalid l := by
  unfold lineErrors lineInvalid
  split_ifs with h1 h2 h3 <;>
    simp_all [List.isEmpty_iff]

theorem collectErrors_eq (ls : List OrderLineCreate) : ∀ i,
    collectErrors i ls = ((ls.enumFrom i).map (fun p => lineErrors p.1 p.2)).flatten := by
  induction ls with
  | nil => intro i; rfl
  | cons l t ih =>
    intro i
    simp only [collectErrors, List.enumFrom, List.map_cons, List.flatten_cons, ih]

theorem collectErrors_nil_iff (ls : List OrderLineCreate) : ∀ i,
    (collectErrors i ls = [] ↔ ∀ l ∈ ls, ¬ lineInvalid l) := by
  induction ls with
  | nil => intro i; simp [collectErrors]
  | cons l t ih =>
    intro i
    simp only [collectErrors, List.append_eq_nil, lineErrors_nil_iff, ih,
      List.mem_cons]
    constructor
    · rintro ⟨h1, h2⟩ x hx
      rcases hx with rfl | hx
      · exact h1
      · exact h2 x hx
    · intro h
      exact ⟨h l (Or.inl rfl), fun x hx => h x (Or.inr hx)⟩

/-- C8.  `validate_order_lines` rejects the empty list with exactly the
"at least one order line is required" error; on a nonempty list it is ok
exactly when no line violates the three per-line rules, and its error list is
the concatenation, in 1-based enumeration order, of each line's violation
messages (so all violations are reported, each carrying its line index). -/
theorem C8_order_line_validation :
    validate_order_lines [] = (false, [.atLeastOneLineRequired]) ∧
    (∀ l : OrderLineCreate, ∀ ls : List OrderLineCreate,
      ((validate_order_lines (l :: ls)).1 = true ↔ ∀ x ∈ l :: ls, ¬ lineInvalid x) ∧
      (validate_order_lines (l :: ls)).2 =
        (((l :: ls).enumFrom 1).map (fun p => lineErrors p.1 p.2)).flatten) := by
  refine ⟨rfl, fun l ls => ⟨?_, ?_⟩⟩
  · show (collectErrors 1 (l :: ls)).isEmpty = true ↔ _
    rw [List.isEmpty_iff, collectErrors_nil_iff]
  · exact collectErrors_eq (l :: ls) 1

/-! ## Reserved-character quoting and decoder totality -/

/-- C7.  A string value that is exactly one reserved character is encoded as
a double-quoted token, and decoding that token returns exactly the
one-character string. -/
theorem C7_reserved_char_quoting :
    ∀ c ∈ SPECIAL_CHARS,
      startsWithC '"' (encode_value (.str [c])) = true ∧
      endsWithC '"' (encode_value (.str [c])) = true ∧
      decode_value (encode_value (.str [c])) = .str [c] := by
  intro c hc
  fin_cases hc <;> exact ⟨by simp only [encode_value]; rfl,
    by simp only [encode_value]; rfl, by simp only [encode_value]; rfl⟩

/-- Witness for `C7_reserved_char_quoting`, at the pipe character. -/
theorem C7_reserved_char_quoting_witness :
    startsWithC '"' (encode_value (.str ['|'])) = true ∧
    endsWithC '"' (encode_value (.str ['|'])) = true ∧
    decode_value (encode_value (.str ['|'])) = .str ['|'] :=
  C7_reserved_char_quoting '|' (by decide)

/-- C9.  `toon_to_json` is total and always returns an object or an array —
the embedding is a total function and no branch of the source can raise
(the only fallible calls, `int()`/`float()`, are wrapped) — and malformed or
skippable input is silently dropped: a pair without a colon contributes
nothing, a blank array element is dropped, unbalanced braces and an
unterminated quote decode to an empty object rather than an error. -/
theorem C9_decoder_totality :
    (∀ s : List Char,
      (∃ kvs, toon_to_json s = .obj kvs) ∨ (∃ xs, toon_to_json s = .arr xs)) ∧
    toon_to_json "a|k:1".data = .obj [("k".data, .int 1)] ∧
    toon_to_json "[a; ;b]".data = .arr [.str "a".data, .str "b".data] ∧
    toon_to_json "\x7b\x7b\x7b".data = .obj [] ∧
    toon_to_json "\"ab".data = .obj [] := by
  refine ⟨fun s => ?_, rfl, rfl, rfl, rfl⟩
  unfold toon_to_json
  by_cases h1 : startsWithC '[' (pyStrip s) ∧ endsWithC ']' (pyStrip s)
  · simp only [h1, if_true]
    exact Or.inr ⟨_, rfl⟩
  · simp only [h1, if_false]
    by_cases h2 : startsWithC '\x7b' (pyStrip s) ∧ endsWithC '\x7d' (pyStrip s)
    · simp only [h2, if_true]
      exact Or.inl ⟨_, rfl⟩
    · simp only [h2, if_false]
      exact Or.inl ⟨_, rfl⟩

/-- C1, counterexample.  A top-level array does not round-trip: the encoder
emits a top-level array without brackets, and the decoder treats any input
not bracketed by `[` `]` (or braced) as an object body, so
`toon_to_json (json_to_toon [1]))` is the empty object, not `[1]`. -/
theorem C1_roundtrip_counterexample :
    toon_to_json (json_to_toon (Value.arr [Value.int 1])) = Value.obj [] ∧
    Value.obj [] ≠ Value.arr [Value.int 1] := by
  constructor
  · simp only [json_to_toon, list_to_toon, List.map_cons, List.map_nil,
      encode_value, intChars, natChars, natCharsF]
    rfl
  · intro h
    exact Value.noConfusion h

/-! ## pyStrip lemmas -/

theorem dropWhile_id_of_head {l : List Char}
    (h : ∀ c, l.head? = some c → isPyWs c = false) : l.dropWhile isPyWs = l := by
  cases l with
  | nil => rfl
  | cons a t =>
    rw [List.dropWhile_cons, if_neg]
    simp [h a rfl]

theorem pyStrip_eq_self {s : List Char}
    (h1 : ∀ c, s.head? = some c → isPyWs c = false)
    (h2 : ∀ c, s.getLast? = some c → isPyWs c = false) : pyStrip s = s := by
  unfold pyStrip
  rw [dropWhile_id_of_head h1, dropWhile_id_of_head, List.reverse_reverse]
  intro c hc
  rw [List.head?_reverse] at hc
  exact h2 c hc

theorem pyStrip_eq_nil_iff {s : List Char} :
    pyStrip s = [] ↔ ∀ c ∈ s, isPyWs c = true := by
  unfold pyStrip
  rw [List.reverse_eq_nil_iff, List.dropWhile_eq_nil_iff]
  constructor
  · intro h c hc
    have hsplit := List.takeWhile_append_dropWhile (p := isPyWs) (l := s)
    rw [← hsplit] at hc
    rcases List.mem_append.1 hc with h1 | h1
    · exact List.mem_takeWhile_imp h1
    · exact h c ((List.mem_reverse).2 h1)
  · intro h c hc
    exact h c ((List.dropWhile_sublist isPyWs).subset (List.mem_reverse.1 hc))

theorem pyStrip_ne_nil {s : List Char} {c : Char} (hc : c ∈ s)
    (hw : isPyWs c = false) : pyStrip s ≠ [] := by
  intro h
  rw [pyStrip_eq_nil_iff] at h
  rw [h c hc] at hw
  cases hw

theorem pyStrip_length_le (s : List Char) : (pyStrip s).length ≤ s.length := by
  unfold pyStrip
  calc ((s.dropWhile isPyWs).reverse.dropWhile isPyWs).reverse.length
      = ((s.dropWhile isPyWs).reverse.dropWhile isPyWs).length := List.length_reverse ..
    _ ≤ (s.dropWhile isPyWs).reverse.length :=
        (List.dropWhile_sublist isPyWs).length_le
    _ = (s.dropWhile isPyWs).length := List.length_reverse ..
    _ ≤ s.length := (List.dropWhile_sublist isPyWs).length_le

theorem pyStrip_head_not_ws {a : Char} {t : List Char}
    (h : pyStrip (a :: t) = a :: t) : isPyWs a = false := by
  by_contra hws
  simp only [Bool.not_eq_false] at hws
  have h1 : (a :: t).dropWhile isPyWs = t.dropWhile isPyWs := by
    rw [List.dropWhile_cons, if_pos (by simp [hws])]
  have h2 : (pyStrip (a :: t)).length ≤ t.length := by
    unfold pyStrip
    rw [h1]
    calc ((t.dropWhile isPyWs).reverse.dropWhile isPyWs).reverse.length
        = ((t.dropWhile isPyWs).reverse.dropWhile isPyWs).length := List.length_reverse ..
      _ ≤ (t.dropWhile isPyWs).reverse.length := (List.dropWhile_sublist isPyWs).length_le
      _ = (t.dropWhile isPyWs).length := List.length_reverse ..
      _ ≤ t.length := (List.dropWhile_sublist isPyWs).length_le
  rw [h] at h2
  simp only [List.length_cons] at h2
  omega

theorem pyStrip_last_not_ws {s : List Char} {c : Char}
    (h : pyStrip s = s) (hc : s.getLast? = some c) : isPyWs c = false := by
  by_contra hws
  simp only [Bool.not_eq_false] at hws
  have hu : s.dropWhile isPyWs = s := by
    have hsub := List.dropWhile_suffix (l := s) isPyWs
    refine hsub.eq_of_length ?_
    have hle := (List.dropWhile_sublist (l := s) isPyWs).length_le
    have : (pyStrip s).length ≤ (s.dropWhile isPyWs).length := by
      unfold pyStrip
      calc ((s.dropWhile isPyWs).reverse.dropWhile isPyWs).reverse.length
          = ((s.dropWhile isPyWs).reverse.dropWhile isPyWs).length := List.length_reverse ..
        _ ≤ (s.dropWhile isPyWs).reverse.length := (List.dropWhile_sublist isPyWs).length_le
        _ = (s.dropWhile isPyWs).length := List.length_reverse ..
    rw [h] at this
    omega
  have hrev : s.reverse.head? = some c := by rw [List.head?_reverse]; exact hc
  obtain ⟨rest, hrest⟩ : ∃ rest, s.reverse = c :: rest := by
    cases hr : s.reverse with
    | nil => rw [hr] at hrev; cases hrev
    | cons x r =>
      rw [hr] at hrev
      injection hrev with h1
      exact ⟨r, by rw [h1]⟩
  have h2 : (pyStrip s).length ≤ rest.length := by
    unfold pyStrip
    rw [hu, hrest, List.dropWhile_cons, if_pos (by simp [hws])]
    calc (rest.dropWhile isPyWs).reverse.length
        = (rest.dropWhile isPyWs).length := List.length_reverse ..
      _ ≤ rest.length := (List.dropWhile_sublist isPyWs).length_le
  rw [h] at h2
  have : s.length = rest.length + 1 := by
    have := congrArg List.length hrest
    simp at this
    omega
  omega

/-! ## splitAtFirst lemmas -/

theorem splitAtFirst_cons_ne {t c : Char} {l : List Char} (hc : c ≠ t) :
    splitAtFirst t (c :: l) =
      (c :: (splitAtFirst t l).1, (splitAtFirst t l).2) := by
  simp [splitAtFirst, hc]

theorem splitAtFirst_not_mem {t : Char} {k v : List Char} (h : t ∉ k) :
    splitAtFirst t (k ++ t :: v) = (k, some v) := by
  induction k with
  | nil => simp [splitAtFirst]
  | cons a rest ih =>
    have ha : a ≠ t := fun e => h (e ▸ List.mem_cons_self a rest)
    have hrest : t ∉ rest := fun e => h (List.mem_cons_of_mem a e)
    rw [List.cons_append, splitAtFirst_cons_ne ha, ih hrest]

theorem splitAtFirst_some {t : Char} {p a b : List Char}
    (h : splitAtFirst t p = (a, some b)) : p = a ++ t :: b := by
  induction p generalizing a b with
  | nil => simp [splitAtFirst] at h
  | cons c rest ih =>
    by_cases hc : c = t
    · have hstep : splitAtFirst t (c :: rest) = ([], some rest) := by
        simp [splitAtFirst, hc]
      rw [hstep] at h
      injection h with h1 h2
      subst h1
      injection h2 with h2
      subst h2
      simp [hc]
    · rw [splitAtFirst_cons_ne hc] at h
      cases hsp : splitAtFirst t rest with
      | mk x y =>
        rw [hsp] at h
        injection h with h1 h2
        subst h2
        cases a with
        | nil => cases h1
        | cons a0 a' =>
          injection h1 with ha0 ha'
          subst ha0
          subst ha'
          rw [List.cons_append]
          exact congrArg (c :: ·) (ih hsp)

theorem pairKV_length {p : List Char} {kv : List Char × List Char}
    (h : pairKV p = some kv) : kv.2.length + 1 ≤ p.length := by
  unfold pairKV at h
  cases hsp : splitAtFirst ':' p with
  | mk k vo =>
    rw [hsp] at h
    cases vo with
    | none => simp at h
    | some v =>
      simp only at h
      by_cases he : (pyStrip k).isEmpty
      · rw [if_pos he] at h; cases h
      · rw [if_neg he] at h
        injection h with h
        have hv : kv.2 = v := by rw [← h]
        have hp := splitAtFirst_some hsp
        subst hp
        rw [hv]
        simp only [List.length_append, List.length_cons]
        omega

/-! ## split_toon_pairs: length bound -/

theorem splitStep_measure (delim : Char) (st : SplitState) (c : Char) :
    (((splitStep delim st c).parts.map List.length).sum +
      (splitStep delim st c).current.length) ≤
    ((st.parts.map List.length).sum + st.current.length) + 1 := by
  unfold splitStep
  split_ifs <;>
    simp [List.map_append, List.sum_append] <;> omega

theorem runSplit_measure (delim : Char) : ∀ (t : List Char) (st : SplitState),
    (((runSplit delim st t).parts.map List.length).sum +
      (runSplit delim st t).current.length) ≤
    ((st.parts.map List.length).sum + st.current.length) + t.length := by
  intro t
  induction t with
  | nil => intro st; simp [runSplit]
  | cons c rest ih =>
    intro st
    have h1 : runSplit delim st (c :: rest) =
        runSplit delim (splitStep delim st c) rest := rfl
    rw [h1]
    calc ((runSplit delim (splitStep delim st c) rest).parts.map List.length).sum +
          (runSplit delim (splitStep delim st c) rest).current.length
        ≤ ((splitStep delim st c).parts.map List.length).sum +
            (splitStep delim st c).current.length + rest.length := ih _
      _ ≤ ((st.parts.map List.length).sum + st.current.length) + 1 + rest.length := by
          have := splitStep_measure delim st c
          omega
      _ = ((st.parts.map List.length).sum + st.current.length) + (c :: rest).length := by
          simp only [List.length_cons]
          omega

theorem length_le_of_mem_split {s p : List Char} {delim : Char}
    (h : p ∈ split_toon_pairs s delim) : p.length ≤ s.length := by
  have hm := runSplit_measure delim s initSplit
  have hz : ((initSplit.parts.map List.length).sum + initSplit.current.length) = 0 := rfl
  unfold split_toon_pairs at h
  set st := s.foldl (splitStep delim) initSplit with hst
  have hst' : st = runSplit delim initSplit s := rfl
  have hmem : p.length ≤ (st.parts.map List.length).sum + st.current.length := by
    by_cases hc : st.current.isEmpty
    · rw [if_pos hc] at h
      have : p.length ∈ st.parts.map List.length := List.mem_map_of_mem _ h
      have := List.single_le_sum (fun (x : ℕ) _ => Nat.zero_le x) _ this
      omega
    · rw [if_neg hc] at h
      rcases List.mem_append.1 h with h1 | h1
      · have : p.length ∈ st.parts.map List.length := List.mem_map_of_mem _ h1
        have := List.single_le_sum (fun (x : ℕ) _ => Nat.zero_le x) _ this
        omega
      · rcases List.mem_singleton.1 h1 with rfl
        omega
  rw [hst'] at hmem
  omega

/-! ## Decoder fuel irrelevance and recursion equations -/

theorem two_le_length_of_startsEnds {a b : Char} {v : List Char}
    (h1 : startsWithC a v = true) (h2 : endsWithC b v = true) (hab : a ≠ b) :
    2 ≤ v.length := by
  simp only [startsWithC, decide_eq_true_eq] at h1
  simp only [endsWithC, decide_eq_true_eq] at h2
  cases v with
  | nil => cases h1
  | cons x t =>
    cases t with
    | nil =>
      simp only [List.head?_cons, Option.some.injEq] at h1
      simp only [List.getLast?_singleton, Option.some.injEq] at h2
      exact absurd (h1.symm.trans h2) hab
    | cons y u => simp only [List.length_cons]; omega

theorem inner_length_eq {v : List Char} (h : 2 ≤ v.length) :
    ((v.drop 1).dropLast).length = v.length - 2 := by
  simp only [List.length_dropLast, List.length_drop]
  omega

set_option maxHeartbeats 1600000 in
theorem decodeF_fuel_irrelevant : ∀ n m s,
    (2 * s.length + 1 ≤ n → 2 * s.length + 1 ≤ m → decodeF n s = decodeF m s) ∧
    (2 * s.length + 2 ≤ n → 2 * s.length + 2 ≤ m → dictF n s = dictF m s) ∧
    (2 * s.length + 2 ≤ n → 2 * s.length + 2 ≤ m → listF n s = listF m s) := by
  intro n
  induction n using Nat.strong_induction_on with
  | _ n ih =>
    intro m s
    have hps : (pyStrip s).length ≤ s.length := pyStrip_length_le s
    refine ⟨?_, ?_, ?_⟩
    · intro hn hm
      obtain ⟨n', rfl⟩ : ∃ k, n = k + 1 := ⟨n - 1, by omega⟩
      obtain ⟨m', rfl⟩ : ∃ k, m = k + 1 := ⟨m - 1, by omega⟩
      simp only [decodeF]
      split_ifs with h1 h2 h3 h4 h5 h6 h7 h8 <;> try rfl
      · -- nested object
        have h2le : 2 ≤ (pyStrip s).length :=
          two_le_length_of_startsEnds h6.1 h6.2 (by decide)
        have hil := inner_length_eq h2le
        congr 1
        exact (ih n' (by omega) m' _).2.1 (by omega) (by omega)
      · -- nested array
        have h2le : 2 ≤ (pyStrip s).length :=
          two_le_length_of_startsEnds h7.1 h7.2 (by decide)
        have hil := inner_length_eq h2le
        congr 1
        exact (ih n' (by omega) m' _).2.2 (by omega) (by omega)
    · intro hn hm
      obtain ⟨n', rfl⟩ : ∃ k, n = k + 1 := ⟨n - 1, by omega⟩
      obtain ⟨m', rfl⟩ : ∃ k, m = k + 1 := ⟨m - 1, by omega⟩
      simp only [dictF]
      by_cases h1 : (pyStrip s).isEmpty
      · rw [if_pos h1, if_pos h1]
      · rw [if_neg h1, if_neg h1]
        congr 1
        apply List.map_congr_left
        intro pair hp
        cases hkv : pairKV pair with
        | none => simp only [hkv]
        | some kv =>
          simp only [hkv, Option.some.injEq, Prod.mk.injEq, true_and]
          have hb := pairKV_length hkv
          have hpl := length_le_of_mem_split hp
          exact (ih n' (by omega) m' kv.2).1 (by omega) (by omega)
    · intro hn hm
      obtain ⟨n', rfl⟩ : ∃ k, n = k + 1 := ⟨n - 1, by omega⟩
      obtain ⟨m', rfl⟩ : ∃ k, m = k + 1 := ⟨m - 1, by omega⟩
      simp only [listF]
      by_cases h1 : (pyStrip s).isEmpty
      · rw [if_pos h1, if_pos h1]
      · rw [if_neg h1, if_neg h1]
        apply List.map_congr_left
        intro item hi
        have hil := length_le_of_mem_split (List.mem_of_mem_filter hi)
        exact (ih n' (by omega) m' item).1 (by omega) (by omega)

theorem decodeF_eq_decode_value {n : Nat} {s : List Char}
    (h : 2 * s.length + 1 ≤ n) : decodeF n s = decode_value s :=
  (decodeF_fuel_irrelevant n (2 * s.length + 1) s).1 h (by omega)

theorem dictF_eq_toon_to_dict {n : Nat} {s : List Char}
    (h : 2 * s.length + 2 ≤ n) : dictF n s = toon_to_dict s :=
  (decodeF_fuel_irrelevant n (2 * s.length + 2) s).2.1 h (by omega)

theorem listF_eq_toon_to_list {n : Nat} {s : List Char}
    (h : 2 * s.length + 2 ≤ n) : listF n s = toon_to_list s :=
  (decodeF_fuel_irrelevant n (2 * s.length + 2) s).2.2 h (by omega)

set_option maxHeartbeats 1600000 in
/-- The recursion equation of `decode_value`, with the mutual calls expressed
through `toon_to_dict` / `toon_to_list`. -/
theorem decode_value_eq (s : List Char) : decode_value s =
    (let v := pyStrip s
    if v.isEmpty then .str []
    else if v = "null".data then .null
    else if v = "true".data then .bool true
    else if v = "false".data then .bool false
    else if startsWithC '"' v ∧ endsWithC '"' v then .str (unquote_string v)
    else if startsWithC '\x7b' v ∧ endsWithC '\x7d' v then
      .obj (toon_to_dict ((v.drop 1).dropLast))
    else if startsWithC '[' v ∧ endsWithC ']' v then
      .arr (toon_to_list ((v.drop 1).dropLast))
    else if '.' ∈ v then (if pyFloatParses v then .float v else .str v)
    else
      match pyParseInt v with
      | some n => .int n
      | none => .str v) := by
  have hps : (pyStrip s).length ≤ s.length := pyStrip_length_le s
  show decodeF (2 * s.length + 1) s = _
  simp only [decodeF]
  split_ifs with h1 h2 h3 h4 h5 h6 h7 h8 <;> try rfl
  · have h2le : 2 ≤ (pyStrip s).length :=
      two_le_length_of_startsEnds h6.1 h6.2 (by decide)
    have hil := inner_length_eq h2le
    congr 1
    exact dictF_eq_toon_to_dict (by omega)
  · have h2le : 2 ≤ (pyStrip s).length :=
      two_le_length_of_startsEnds h7.1 h7.2 (by decide)
    have hil := inner_length_eq h2le
    congr 1
    exact listF_eq_toon_to_list (by omega)

/-- The recursion equation of `toon_to_dict`. -/
theorem toon_to_dict_eq (s : List Char) : toon_to_dict s =
    (if (pyStrip s).isEmpty then []
    else
      buildDict ((split_toon_pairs s '|').map (fun pair =>
        match pairKV pair with
        | none => none
        | some kv => some (kv.1, decode_value kv.2)))) := by
  show dictF (2 * s.length + 2) s = _
  simp only [dictF]
  by_cases h1 : (pyStrip s).isEmpty
  · rw [if_pos h1, if_pos h1]
  · rw [if_neg h1, if_neg h1]
    congr 1
    apply List.map_congr_left
    intro pair hp
    cases hkv : pairKV pair with
    | none => simp only [hkv]
    | some kv =>
      simp only [hkv, Option.some.injEq, Prod.mk.injEq, true_and]
      have hb := pairKV_length hkv
      have hpl := length_le_of_mem_split hp
      exact decodeF_eq_decode_value (by omega)

/-- The recursion equation of `toon_to_list`. -/
theorem toon_to_list_eq (s : List Char) : toon_to_list s =
    (if (pyStrip s).isEmpty then []
    else
      ((split_toon_pairs s ';').filter (fun item => !(pyStrip item).isEmpty)).map
        decode_value) := by
  show listF (2 * s.length + 2) s = _
  simp only [listF]
  by_cases h1 : (pyStrip s).isEmpty
  · rw [if_pos h1, if_pos h1]
  · rw [if_neg h1, if_neg h1]
    apply List.map_congr_left
    intro item hi
    have hil := length_le_of_mem_split (List.mem_of_mem_filter hi)
    exact decodeF_eq_decode_value (by omega)

/-! ## Encoder recursion equations -/

theorem encode_value_null : encode_value .null = "null".data := by
  simp [encode_value]

theorem encode_value_bool (b : Bool) :
    encode_value (.bool b) = (if b then "true".data else "false".data) := by
  simp [encode_value]

theorem encode_value_int (n : Int) : encode_value (.int n) = intChars n := by
  simp [encode_value]

theorem encode_value_str (s : List Char) :
    encode_value (.str s) = if needs_quoting s then quote_string s else s := by
  simp [encode_value]

theorem encode_value_obj (kvs : List (List Char × Value)) :
    encode_value (.obj kvs) = '\x7b' :: (dict_to_toon kvs ++ ['\x7d']) := by
  rw [encode_value, dict_to_toon]
  rw [List.attach_map_val kvs (fun kv => kv.1 ++ ':' :: encode_value kv.2)]

theorem encode_value_arr (xs : List Value) :
    encode_value (.arr xs) = '[' :: (list_to_toon xs ++ [']']) := by
  rw [encode_value, list_to_toon]
  rw [List.attach_map_val xs encode_value]

/-! ## Quoting round-trip -/

theorem replaceChar_cons (a : Char) (r : List Char) (x : Char) (l : List Char) :
    replaceChar a r (x :: l) = (if x = a then r else [x]) ++ replaceChar a r l := by
  simp [replaceChar]

theorem replaceChar_append (a : Char) (r : List Char) (l1 l2 : List Char) :
    replaceChar a r (l1 ++ l2) = replaceChar a r l1 ++ replaceChar a r l2 := by
  simp [replaceChar]

theorem esc_eq_flatMap (s : List Char) :
    replaceChar '"' ['\\', '"'] (replaceChar '\\' ['\\', '\\'] s) =
      s.flatMap qUnit := by
  induction s with
  | nil => rfl
  | cons c t ih =>
    rw [replaceChar_cons, replaceChar_append, ih, List.flatMap_cons]
    by_cases hc : c = '\\'
    · subst hc
      rw [if_pos rfl]
      rfl
    · by_cases hq : c = '"'
      · subst hq
        rw [if_neg hc]
        rfl
      · rw [if_neg hc]
        have h1 : replaceChar '"' ['\\', '"'] [c] = [c] := by
          simp [replaceChar, hq]
        rw [h1]
        simp [qUnit, hc, hq]

theorem replacePair_cons_ne {a b r c : Char} {l : List Char} (hc : c ≠ a) :
    replacePair a b r (c :: l) = c :: replacePair a b r l := by
  cases l with
  | nil => rfl
  | cons d t =>
    rw [replacePair, if_neg]
    rintro ⟨h1, -⟩
    exact hc h1

theorem qUnit_head_ne_quote (c : Char) (rest : List Char) :
    (qUnit c ++ rest).head? ≠ some '"' := by
  unfold qUnit
  by_cases hc : c = '\\'
  · simp [hc]
  · by_cases hq : c = '"'
    · simp [hc, hq]
    · simp only [if_neg hc, if_neg hq, List.singleton_append, List.head?_cons,
        ne_eq, Option.some.injEq]
      exact hq

theorem rp1_bs_prefix (s : List Char) :
    replacePair '\\' '"' '"' ('\\' :: s.flatMap qUnit) =
      '\\' :: replacePair '\\' '"' '"' (s.flatMap qUnit) := by
  cases hfm : s.flatMap qUnit with
  | nil => rfl
  | cons h rest =>
    have hne : h ≠ '"' := by
      cases s with
      | nil => cases hfm
      | cons c t =>
        rw [List.flatMap_cons] at hfm
        have := qUnit_head_ne_quote c (t.flatMap qUnit)
        rw [hfm] at this
        simp only [List.head?_cons, ne_eq, Option.some.injEq] at this
        exact this
    rw [replacePair, if_neg]
    rintro ⟨-, h2⟩
    exact hne h2

theorem rp1_esc (s : List Char) :
    replacePair '\\' '"' '"' (s.flatMap qUnit) = s.flatMap mUnit := by
  induction s with
  | nil => rfl
  | cons c t ih =>
    rw [List.flatMap_cons, List.flatMap_cons]
    by_cases hc : c = '\\'
    · subst hc
      show replacePair '\\' '"' '"' ('\\' :: '\\' :: t.flatMap qUnit) = _
      rw [replacePair, if_neg (by rintro ⟨-, h⟩; cases h), rp1_bs_prefix, ih]
      rfl
    · by_cases hq : c = '"'
      · subst hq
        show replacePair '\\' '"' '"' ('\\' :: '"' :: t.flatMap qUnit) = _
        rw [replacePair, if_pos ⟨rfl, rfl⟩, ih]
        rfl
      · show replacePair '\\' '"' '"' (qUnit c ++ t.flatMap qUnit) = mUnit c ++ _
        have h1 : qUnit c = [c] := by simp [qUnit, hc, hq]
        have h2 : mUnit c = [c] := by simp [mUnit, hc]
        rw [h1, h2, List.singleton_append, List.singleton_append,
          replacePair_cons_ne hc, ih]

theorem rp2_mid (s : List Char) :
    replacePair '\\' '\\' '\\' (s.flatMap mUnit) = s := by
  induction s with
  | nil => rfl
  | cons c t ih =>
    rw [List.flatMap_cons]
    by_cases hc : c = '\\'
    · subst hc
      show replacePair '\\' '\\' '\\' ('\\' :: '\\' :: t.flatMap mUnit) = _
      rw [replacePair, if_pos ⟨rfl, rfl⟩, ih]
    · have h1 : mUnit c = [c] := by simp [mUnit, hc]
      rw [h1, List.singleton_append, replacePair_cons_ne hc, ih]

theorem quote_string_eq (s : List Char) :
    quote_string s = '"' :: (s.flatMap qUnit ++ ['"']) := by
  unfold quote_string
  rw [esc_eq_flatMap]

theorem unquote_quote (s : List Char) :
    unquote_string (quote_string s) = s := by
  rw [quote_string_eq]
  unfold unquote_string
  have hstart : startsWithC '"' ('"' :: (s.flatMap qUnit ++ ['"'])) = true := rfl
  have hend : endsWithC '"' ('"' :: (s.flatMap qUnit ++ ['"'])) = true := by
    simp only [endsWithC]
    rw [show ('"' :: (s.flatMap qUnit ++ ['"'])) = ('"' :: s.flatMap qUnit) ++ ['"']
      from by simp]
    rw [List.getLast?_concat]
    decide
  rw [if_pos ⟨hstart, hend⟩]
  have hdrop : (('"' :: (s.flatMap qUnit ++ ['"'])).drop 1).dropLast = s.flatMap qUnit := by
    rw [List.drop_succ_cons, List.drop_zero, List.dropLast_concat]
  rw [hdrop, rp1_esc, rp2_mid]

/-! ## Integer literals round-trip -/

theorem digitChar_isDigit (k : Nat) : (digitChar k).isDigit = true := by
  unfold digitChar
  split <;> decide

theorem digitChar_toNat {k : Nat} (h : k < 10) : (digitChar k).toNat = 48 + k := by
  interval_cases k <;> decide

theorem natCharsF_irrel : ∀ n f g, n < f → n < g → natCharsF f n = natCharsF g n := by
  intro n
  induction n using Nat.strong_induction_on with
  | _ n ih =>
    intro f g hf hg
    obtain ⟨f', rfl⟩ : ∃ k, f = k + 1 := ⟨f - 1, by omega⟩
    obtain ⟨g', rfl⟩ : ∃ k, g = k + 1 := ⟨g - 1, by omega⟩
    simp only [natCharsF]
    by_cases h : n < 10
    · rw [if_pos h, if_pos h]
    · rw [if_neg h, if_neg h]
      have hlt : n / 10 < n := Nat.div_lt_self (by omega) (by omega)
      rw [ih (n / 10) hlt f' g' (by omega) (by omega)]

theorem natChars_eq (n : Nat) :
    natChars n = if n < 10 then [digitChar n]
      else natChars (n / 10) ++ [digitChar (n % 10)] := by
  show natCharsF (n + 1) n = _
  simp only [natCharsF]
  by_cases h : n < 10
  · rw [if_pos h, if_pos h]
  · rw [if_neg h, if_neg h]
    have hlt : n / 10 < n := Nat.div_lt_self (by omega) (by omega)
    rw [natCharsF_irrel (n / 10) n (n / 10 + 1) hlt (by omega)]
    rfl

theorem natChars_ne_nil (n : Nat) : natChars n ≠ [] := by
  rw [natChars_eq]
  split_ifs
  · simp
  · simp

theorem natChars_all_digits (n : Nat) : ∀ c ∈ natChars n, c.isDigit = true := by
  induction n using Nat.strong_induction_on with
  | _ n ih =>
    rw [natChars_eq]
    split_ifs with h
    · intro c hc
      rw [List.mem_singleton.1 hc]
      exact digitChar_isDigit n
    · intro c hc
      rcases List.mem_append.1 hc with h1 | h1
      · exact ih (n / 10) (Nat.div_lt_self (by omega) (by omega)) c h1
      · rw [List.mem_singleton.1 h1]
        exact digitChar_isDigit (n % 10)

theorem natChars_foldl (n : Nat) : ∀ acc : Nat,
    (natChars n).foldl (fun a c => 10 * a + (c.toNat - 48)) acc =
      acc * 10 ^ (natChars n).length + n := by
  induction n using Nat.strong_induction_on with
  | _ n ih =>
    intro acc
    rw [natChars_eq]
    split_ifs with h
    · simp only [List.foldl_cons, List.foldl_nil, List.length_singleton,
        pow_one, digitChar_toNat h]
      omega
    · rw [List.foldl_append, List.length_append, ih (n / 10)
        (Nat.div_lt_self (by omega) (by omega)) acc]
      simp only [List.foldl_cons, List.foldl_nil, List.length_singleton,
        digitChar_toNat (Nat.mod_lt n (by omega))]
      rw [pow_succ]
      have := Nat.div_add_mod n 10
      have hsub : (48 + n % 10) - 48 = n % 10 := by omega
      rw [hsub]
      have hmul : acc * (10 ^ (natChars (n / 10)).length * 10) =
          acc * 10 ^ (natChars (n / 10)).length * 10 := by ring
      rw [hmul]
      set P := acc * 10 ^ (natChars (n / 10)).length
      omega

theorem parseDigitsUAux_all_digits : ∀ (ds : List Char) (acc : Nat),
    (∀ c ∈ ds, c.isDigit = true) →
    parseDigitsUAux acc ds =
      some (ds.foldl (fun a c => 10 * a + (c.toNat - 48)) acc) := by
  intro ds
  induction ds with
  | nil => intro acc _; rfl
  | cons c t ih =>
    intro acc hall
    have hc : c.isDigit = true := hall c (List.mem_cons_self c t)
    have hstep : parseDigitsUAux acc (c :: t) =
        parseDigitsUAux (10 * acc + (c.toNat - 48)) t := by
      rw [parseDigitsUAux.eq_def]
      simp [hc]
    rw [hstep, List.foldl_cons]
    exact ih _ (fun x hx => hall x (List.mem_cons_of_mem c hx))

theorem parseDigitsU_natChars (n : Nat) : parseDigitsU (natChars n) = some n := by
  cases h : natChars n with
  | nil => exact absurd h (natChars_ne_nil n)
  | cons c rest =>
    have hc : c.isDigit = true := natChars_all_digits n c (h ▸ List.mem_cons_self c rest)
    have hrest : ∀ x ∈ rest, x.isDigit = true := fun x hx =>
      natChars_all_digits n x (h ▸ List.mem_cons_of_mem c hx)
    simp only [parseDigitsU, hc, if_true]
    rw [parseDigitsUAux_all_digits rest (c.toNat - 48) hrest]
    have hfold := natChars_foldl n 0
    rw [h] at hfold
    simp only [List.foldl_cons] at hfold
    rw [show 10 * 0 + (c.toNat - 48) = c.toNat - 48 from by omega] at hfold
    rw [hfold]
    simp

theorem isDigit_not_ws {c : Char} (h : c.isDigit = true) : isPyWs c = false := by
  by_contra hws
  simp only [Bool.not_eq_false] at hws
  simp only [isPyWs, Bool.or_eq_true, decide_eq_true_eq] at hws
  rcases hws with ((((h1 | h1) | h1) | h1) | h1) | h1 <;>
    (subst h1; exact absurd h (by decide))

theorem head_ne {l1 l2 : List Char} (h : l1.head? ≠ l2.head?) : l1 ≠ l2 :=
  fun e => h (congrArg List.head? e)

theorem getLast?_cons_of_ne {a : Char} {l : List Char} (h : l ≠ []) :
    (a :: l).getLast? = l.getLast? := by
  cases l with
  | nil => exact absurd rfl h
  | cons b t => exact List.getLast?_cons_cons

theorem intChars_eq (k : Int) :
    intChars k = if k < 0 then '-' :: natChars k.natAbs else natChars k.toNat := rfl

theorem intChars_ne_nil (k : Int) : intChars k ≠ [] := by
  rw [intChars_eq]
  split_ifs
  · simp
  · exact natChars_ne_nil _

theorem intChars_mem {k : Int} {c : Char} (hc : c ∈ intChars k) :
    c.isDigit = true ∨ c = '-' := by
  rw [intChars_eq] at hc
  split_ifs at hc
  · rcases List.mem_cons.1 hc with rfl | h1
    · exact Or.inr rfl
    · exact Or.inl (natChars_all_digits _ c h1)
  · exact Or.inl (natChars_all_digits _ c hc)

theorem intChars_head {k : Int} {c : Char} (hc : (intChars k).head? = some c) :
    c.isDigit = true ∨ c = '-' :=
  intChars_mem (List.mem_of_mem_head? hc)

theorem pyStrip_intChars (k : Int) : pyStrip (intChars k) = intChars k := by
  apply pyStrip_eq_self
  · intro c hc
    rcases intChars_head hc with h | rfl
    · exact isDigit_not_ws h
    · decide
  · intro c hc
    rcases intChars_mem (List.mem_of_getLast?_eq_some hc) with h | rfl
    · exact isDigit_not_ws h
    · decide

theorem pyParseInt_intChars (k : Int) : pyParseInt (intChars k) = some k := by
  unfold pyParseInt
  rw [pyStrip_intChars]
  by_cases hk : k < 0
  · rw [show intChars k = '-' :: natChars k.natAbs from by rw [intChars_eq, if_pos hk]]
    show (if ('-' : Char) = '+' then (parseDigitsU (natChars k.natAbs)).map Int.ofNat
      else if ('-' : Char) = '-' then
        (parseDigitsU (natChars k.natAbs)).map (fun n => -(Int.ofNat n))
      else (parseDigitsU ('-' :: natChars k.natAbs)).map Int.ofNat) = some k
    rw [if_neg (by decide), if_pos rfl, parseDigitsU_natChars, Option.map_some']
    refine congrArg some ?_
    rw [Int.ofNat_eq_natCast]
    omega
  · rw [show intChars k = natChars k.toNat from by rw [intChars_eq, if_neg hk]]
    cases hn : natChars k.toNat with
    | nil => exact absurd hn (natChars_ne_nil _)
    | cons c rest =>
      have hc : c.isDigit = true := natChars_all_digits _ c (hn ▸ List.mem_cons_self c rest)
      have hplus : ¬c = '+' := by
        intro h
        subst h
        exact absurd hc (by decide)
      have hminus : ¬c = '-' := by
        intro h
        subst h
        exact absurd hc (by decide)
      show (if c = '+' then (parseDigitsU rest).map Int.ofNat
        else if c = '-' then (parseDigitsU rest).map (fun n => -(Int.ofNat n))
        else (parseDigitsU (c :: rest)).map Int.ofNat) = some k
      rw [if_neg hplus, if_neg hminus, ← hn, parseDigitsU_natChars, Option.map_some']
      refine congrArg some ?_
      rw [Int.ofNat_eq_natCast]
      omega

theorem dot_not_mem_intChars (k : Int) : '.' ∉ intChars k := by
  intro h
  rcases intChars_mem h with h1 | h1
  · exact absurd h1 (by decide)
  · cases h1

theorem quote_getLast (s : List Char) : (quote_string s).getLast? = some '"' := by
  rw [quote_string_eq]
  rw [show ('"' :: (s.flatMap qUnit ++ ['"'])) = ('"' :: s.flatMap qUnit) ++ ['"']
    from by simp]
  exact List.getLast?_concat _

theorem pyStrip_quote (s : List Char) :
    pyStrip (quote_string s) = quote_string s := by
  apply pyStrip_eq_self
  · intro c hc
    rw [quote_string_eq] at hc
    simp only [List.head?_cons, Option.some.injEq] at hc
    subst hc
    decide
  · intro c hc
    rw [quote_getLast s] at hc
    injection hc with hc
    subst hc
    decide

theorem decode_value_quote (s : List Char) :
    decode_value (quote_string s) = .str s := by
  rw [decode_value_eq]
  simp only [pyStrip_quote]
  rw [if_neg (by rw [quote_string_eq]; simp)]
  rw [if_neg (head_ne (by rw [quote_string_eq]; simp))]
  rw [if_neg (head_ne (by rw [quote_string_eq]; simp))]
  rw [if_neg (head_ne (by rw [quote_string_eq]; simp))]
  rw [if_pos ⟨by rw [quote_string_eq]; rfl,
    by simp only [endsWithC, quote_getLast]; decide⟩]
  rw [unquote_quote]

theorem decode_value_intChars (k : Int) : decode_value (intChars k) = .int k := by
  rw [decode_value_eq]
  simp only [pyStrip_intChars]
  have hne : (intChars k).head? ≠ some '"' ∧ (intChars k).head? ≠ some '\x7b' ∧
      (intChars k).head? ≠ some '[' ∧ (intChars k).head? ≠ some 'n' ∧
      (intChars k).head? ≠ some 't' ∧ (intChars k).head? ≠ some 'f' := by
    cases hh : (intChars k).head? with
    | none =>
      simp
    | some c =>
      rcases intChars_head hh with h | rfl
      · refine ⟨?_, ?_, ?_, ?_, ?_, ?_⟩ <;>
          (intro he; injection he with he; subst he; exact absurd h (by decide))
      · refine ⟨?_, ?_, ?_, ?_, ?_, ?_⟩ <;>
          (intro he; injection he with he; exact absurd he (by decide))
  rw [if_neg (by simp [List.isEmpty_iff, intChars_ne_nil k])]
  rw [if_neg (head_ne (by rw [show ("null".data).head? = some 'n' from rfl]; exact hne.2.2.2.1))]
  rw [if_neg (head_ne (by rw [show ("true".data).head? = some 't' from rfl]; exact hne.2.2.2.2.1))]
  rw [if_neg (head_ne (by rw [show ("false".data).head? = some 'f' from rfl]; exact hne.2.2.2.2.2))]
  rw [if_neg (fun h => hne.1 (by simpa [startsWithC] using h.1))]
  rw [if_neg (fun h => hne.2.1 (by simpa [startsWithC] using h.1))]
  rw [if_neg (fun h => hne.2.2.1 (by simpa [startsWithC] using h.1))]
  rw [if_neg (dot_not_mem_intChars k)]
  rw [pyParseInt_intChars]

/-! ## Splitter: single-step characterisations -/

theorem splitStep_escaped {delim : Char} {st : SplitState} {c : Char}
    (he : st.escape_next = true) :
    splitStep delim st c = { st with current := st.current ++ [c], escape_next := false } := by
  unfold splitStep
  rw [if_pos he]

theorem splitStep_backslash {delim : Char} {st : SplitState}
    (he : st.escape_next = false) :
    splitStep delim st '\\' =
      { st with current := st.current ++ ['\\'], escape_next := true } := by
  unfold splitStep
  rw [if_neg (by simp [he]), if_pos rfl]

theorem splitStep_quote {delim : Char} {st : SplitState}
    (he : st.escape_next = false) :
    splitStep delim st '"' =
      { st with in_quotes := !st.in_quotes, current := st.current ++ ['"'] } := by
  unfold splitStep
  rw [if_neg (by simp [he]), if_neg (by decide), if_pos rfl]

theorem splitStep_inquotes {delim : Char} {st : SplitState} {c : Char}
    (he : st.escape_next = false) (hq : st.in_quotes = true)
    (h1 : c ≠ '\\') (h2 : c ≠ '"') :
    splitStep delim st c = { st with current := st.current ++ [c] } := by
  unfold splitStep
  rw [if_neg (by simp [he]), if_neg h1, if_neg h2, if_pos hq]

theorem splitStep_plain {delim : Char} {st : SplitState} {c : Char}
    (he : st.escape_next = false) (hq : st.in_quotes = false)
    (h1 : c ≠ '\\') (h2 : c ≠ '"') (h3 : c ≠ '\x7b') (h4 : c ≠ '\x7d')
    (h5 : c ≠ '[') (h6 : c ≠ ']')
    (h7 : ¬(c = delim ∧ st.depth_brace = 0 ∧ st.depth_bracket = 0)) :
    splitStep delim st c = { st with current := st.current ++ [c] } := by
  unfold splitStep
  rw [if_neg (by simp [he]), if_neg h1, if_neg h2, if_neg (by simp [hq]),
    if_neg h3, if_neg h4, if_neg h5, if_neg h6, if_neg h7]

theorem splitStep_open_brace {delim : Char} {st : SplitState}
    (he : st.escape_next = false) (hq : st.in_quotes = false) :
    splitStep delim st '\x7b' =
      { st with depth_brace := st.depth_brace + 1,
                current := st.current ++ ['\x7b'] } := by
  unfold splitStep
  rw [if_neg (by simp [he]), if_neg (by decide), if_neg (by decide),
    if_neg (by simp [hq]), if_pos rfl]

theorem splitStep_close_brace {delim : Char} {st : SplitState}
    (he : st.escape_next = false) (hq : st.in_quotes = false) :
    splitStep delim st '\x7d' =
      { st with depth_brace := st.depth_brace - 1,
                current := st.current ++ ['\x7d'] } := by
  unfold splitStep
  rw [if_neg (by simp [he]), if_neg (by decide), if_neg (by decide),
    if_neg (by simp [hq]), if_neg (by decide), if_pos rfl]

theorem splitStep_open_bracket {delim : Char} {st : SplitState}
    (he : st.escape_next = false) (hq : st.in_quotes = false) :
    splitStep delim st '[' =
      { st with depth_bracket := st.depth_bracket + 1,
                current := st.current ++ ['['] } := by
  unfold splitStep
  rw [if_neg (by simp [he]), if_neg (by decide), if_neg (by decide),
    if_neg (by simp [hq]), if_neg (by decide), if_neg (by decide), if_pos rfl]

theorem splitStep_close_bracket {delim : Char} {st : SplitState}
    (he : st.escape_next = false) (hq : st.in_quotes = false) :
    splitStep delim st ']' =
      { st with depth_bracket := st.depth_bracket - 1,
                current := st.current ++ [']'] } := by
  unfold splitStep
  rw [if_neg (by simp [he]), if_neg (by decide), if_neg (by decide),
    if_neg (by simp [hq]), if_neg (by decide), if_neg (by decide),
    if_neg (by decide), if_pos rfl]

theorem splitStep_delim_split {delim : Char} {st : SplitState}
    (he : st.escape_next = false) (hq : st.in_quotes = false)
    (hd : delim = '|' ∨ delim = ';')
    (h0 : st.depth_brace = 0) (h0' : st.depth_bracket = 0) :
    splitStep delim st delim =
      { st with parts := st.parts ++ [st.current], current := [] } := by
  unfold splitStep
  rcases hd with rfl | rfl <;>
    rw [if_neg (by simp [he]), if_neg (by decide), if_neg (by decide),
      if_neg (by simp [hq]), if_neg (by decide), if_neg (by decide),
      if_neg (by decide), if_neg (by decide), if_pos ⟨rfl, h0, h0'⟩]

/-! ## Splitter: single steps on explicit states -/

theorem runSplit_cons {delim : Char} {st : SplitState} {c : Char} {t : List Char} :
    runSplit delim st (c :: t) = runSplit delim (splitStep delim st c) t := rfl

theorem runSplit_append {delim : Char} {st : SplitState} {a b : List Char} :
    runSplit delim st (a ++ b) = runSplit delim (runSplit delim st a) b :=
  List.foldl_append ..

theorem splitStep_escaped' {delim c : Char} {parts : List (List Char)}
    {cur : List Char} {db dk : Int} {q : Bool} :
    splitStep delim ⟨parts, cur, db, dk, q, true⟩ c = ⟨parts, cur ++ [c], db, dk, q, false⟩ :=
  splitStep_escaped rfl

theorem splitStep_backslash' {delim : Char} {parts : List (List Char)}
    {cur : List Char} {db dk : Int} {q : Bool} :
    splitStep delim ⟨parts, cur, db, dk, q, false⟩ '\\' =
      ⟨parts, cur ++ ['\\'], db, dk, q, true⟩ :=
  splitStep_backslash rfl

theorem splitStep_quote_open {delim : Char} {parts : List (List Char)}
    {cur : List Char} {db dk : Int} :
    splitStep delim ⟨parts, cur, db, dk, false, false⟩ '"' =
      ⟨parts, cur ++ ['"'], db, dk, true, false⟩ :=
  splitStep_quote rfl

theorem splitStep_quote_close {delim : Char} {parts : List (List Char)}
    {cur : List Char} {db dk : Int} :
    splitStep delim ⟨parts, cur, db, dk, true, false⟩ '"' =
      ⟨parts, cur ++ ['"'], db, dk, false, false⟩ :=
  splitStep_quote rfl

theorem splitStep_inquotes' {delim c : Char} {parts : List (List Char)}
    {cur : List Char} {db dk : Int} (h1 : c ≠ '\\') (h2 : c ≠ '"') :
    splitStep delim ⟨parts, cur, db, dk, true, false⟩ c =
      ⟨parts, cur ++ [c], db, dk, true, false⟩ :=
  splitStep_inquotes rfl rfl h1 h2

theorem splitStep_plain' {delim c : Char} {parts : List (List Char)}
    {cur : List Char} {db dk : Int}
    (h1 : c ≠ '\\') (h2 : c ≠ '"') (h3 : c ≠ '\x7b') (h4 : c ≠ '\x7d')
    (h5 : c ≠ '[') (h6 : c ≠ ']')
    (h7 : ¬(c = delim ∧ db = 0 ∧ dk = 0)) :
    splitStep delim ⟨parts, cur, db, dk, false, false⟩ c =
      ⟨parts, cur ++ [c], db, dk, false, false⟩ :=
  splitStep_plain rfl rfl h1 h2 h3 h4 h5 h6 h7

theorem splitStep_open_brace' {delim : Char} {parts : List (List Char)}
    {cur : List Char} {db dk : Int} :
    splitStep delim ⟨parts, cur, db, dk, false, false⟩ '\x7b' =
      ⟨parts, cur ++ ['\x7b'], db + 1, dk, false, false⟩ :=
  splitStep_open_brace rfl rfl

theorem splitStep_close_brace' {delim : Char} {parts : List (List Char)}
    {cur : List Char} {db dk : Int} :
    splitStep delim ⟨parts, cur, db, dk, false, false⟩ '\x7d' =
      ⟨parts, cur ++ ['\x7d'], db - 1, dk, false, false⟩ :=
  splitStep_close_brace rfl rfl

theorem splitStep_open_bracket' {delim : Char} {parts : List (List Char)}
    {cur : List Char} {db dk : Int} :
    splitStep delim ⟨parts, cur, db, dk, false, false⟩ '[' =
      ⟨parts, cur ++ ['['], db, dk + 1, false, false⟩ :=
  splitStep_open_bracket rfl rfl

theorem splitStep_close_bracket' {delim : Char} {parts : List (List Char)}
    {cur : List Char} {db dk : Int} :
    splitStep delim ⟨parts, cur, db, dk, false, false⟩ ']' =
      ⟨parts, cur ++ [']'], db, dk - 1, false, false⟩ :=
  splitStep_close_bracket rfl rfl

theorem splitStep_delim_split' {delim : Char} {parts : List (List Char)}
    {cur : List Char} (hd : delim = '|' ∨ delim = ';') :
    splitStep delim ⟨parts, cur, 0, 0, false, false⟩ delim =
      ⟨parts ++ [cur], [], 0, 0, false, false⟩ :=
  splitStep_delim_split rfl rfl hd rfl rfl

/-! ## Splitter: neutral runs -/

theorem needs_quoting_false {s : List Char} (h : needs_quoting s = false) :
    s ≠ [] ∧ ∀ c ∈ s, c ∉ SPECIAL_CHARS := by
  unfold needs_quoting at h
  simp only [Bool.or_eq_false_iff, List.any_eq_false, decide_eq_true_eq] at h
  refine ⟨fun he => ?_, h.2⟩
  rw [he] at h
  exact absurd h.1 (by decide)

theorem not_special_chars {c : Char} (h : c ∉ SPECIAL_CHARS) :
    c ≠ '|' ∧ c ≠ ':' ∧ c ≠ ';' ∧ c ≠ '\x7b' ∧ c ≠ '\x7d' ∧ c ≠ '[' ∧
      c ≠ ']' ∧ c ≠ '"' := by
  simp only [SPECIAL_CHARS, List.mem_cons, List.not_mem_nil, or_false, not_or] at h
  exact ⟨h.1, h.2.1, h.2.2.1, h.2.2.2.1, h.2.2.2.2.1, h.2.2.2.2.2.1,
    h.2.2.2.2.2.2.1, h.2.2.2.2.2.2.2.1⟩

theorem run_nonspecial {delim : Char} (hd : delim = '|' ∨ delim = ';') :
    ∀ (n : Nat) (t : List Char), t.length ≤ n →
    (∀ c ∈ t, c ∉ SPECIAL_CHARS) → t.getLast? ≠ some '\\' →
    ∀ (parts : List (List Char)) (cur : List Char) (db dk : Int),
    runSplit delim ⟨parts, cur, db, dk, false, false⟩ t =
      ⟨parts, cur ++ t, db, dk, false, false⟩ := by
  intro n
  induction n with
  | zero =>
    intro t ht _ _ parts cur db dk
    have : t = [] := List.eq_nil_of_length_eq_zero (by omega)
    subst this
    simp [runSplit]
  | succ n ih =>
    intro t ht hns hlast parts cur db dk
    cases t with
    | nil => simp [runSplit]
    | cons c rest =>
      by_cases hbs : c = '\\'
      · subst hbs
        cases rest with
        | nil => exact absurd rfl hlast
        | cons c2 rest2 =>
          rw [runSplit_cons, splitStep_backslash', runSplit_cons, splitStep_escaped']
          rw [ih rest2 (by simp only [List.length_cons] at ht ⊢; omega)
            (fun x hx => hns x (by simp [hx]))
            (by
              cases rest2 with
              | nil => simp
              | cons c3 rest3 =>
                rw [getLast?_cons_of_ne (by simp), getLast?_cons_of_ne (by simp)] at hlast
                exact hlast)
            parts _ db dk]
          congr 1
          simp
      · have hcs := hns c (List.mem_cons_self c rest)
        obtain ⟨ne1, ne2, ne3, ne4, ne5, ne6, ne7, ne8⟩ := not_special_chars hcs
        have hdne : ¬(c = delim ∧ (db : Int) = 0 ∧ (dk : Int) = 0) := by
          rintro ⟨rfl, -, -⟩
          rcases hd with rfl | rfl
          · exact ne1 rfl
          · exact ne3 rfl
        rw [runSplit_cons, splitStep_plain' hbs ne8 ne4 ne5 ne6 ne7 hdne]
        rw [ih rest (by simp only [List.length_cons] at ht ⊢; omega)
          (fun x hx => hns x (List.mem_cons_of_mem c hx))
          (by
            cases rest with
            | nil => simp
            | cons c3 rest3 =>
              rw [getLast?_cons_of_ne (by simp)] at hlast
              exact hlast)
          parts _ db dk]
        congr 1
        simp

theorem run_inquotes {delim : Char} : ∀ (s : List Char)
    (parts : List (List Char)) (cur : List Char) (db dk : Int),
    runSplit delim ⟨parts, cur, db, dk, true, false⟩ (s.flatMap qUnit) =
      ⟨parts, cur ++ s.flatMap qUnit, db, dk, true, false⟩ := by
  intro s
  induction s with
  | nil => intro parts cur db dk; simp [runSplit]
  | cons c t ih =>
    intro parts cur db dk
    rw [List.flatMap_cons, runSplit_append]
    by_cases hbs : c = '\\'
    · subst hbs
      rw [show qUnit '\\' = ['\\', '\\'] from rfl]
      rw [runSplit_cons, splitStep_backslash', runSplit_cons, splitStep_escaped']
      show runSplit delim ⟨parts, cur ++ ['\\'] ++ ['\\'], db, dk, true, false⟩ _ = _
      rw [ih]
      congr 1
      simp
    · by_cases hq : c = '"'
      · subst hq
        rw [show qUnit '"' = ['\\', '"'] from rfl]
        rw [runSplit_cons, splitStep_backslash', runSplit_cons, splitStep_escaped']
        show runSplit delim ⟨parts, cur ++ ['\\'] ++ ['"'], db, dk, true, false⟩ _ = _
        rw [ih]
        congr 1
        simp
      · rw [show qUnit c = [c] from by simp [qUnit, hbs, hq]]
        rw [runSplit_cons, splitStep_inquotes' hbs hq]
        show runSplit delim ⟨parts, cur ++ [c], db, dk, true, false⟩ _ = _
        rw [ih]
        congr 1
        simp

theorem run_quoted {delim : Char} (s : List Char)
    (parts : List (List Char)) (cur : List Char) (db dk : Int) :
    runSplit delim ⟨parts, cur, db, dk, false, false⟩ (quote_string s) =
      ⟨parts, cur ++ quote_string s, db, dk, false, false⟩ := by
  rw [quote_string_eq, runSplit_cons, splitStep_quote_open]
  rw [runSplit_append, run_inquotes]
  rw [show (['"'] : List Char) = '"' :: [] from rfl, runSplit_cons,
    splitStep_quote_close]
  show (⟨parts, cur ++ ['"'] ++ s.flatMap qUnit ++ ['"'], db, dk, false,
    false⟩ : SplitState) = _
  congr 1
  simp

/-! ## joinSep / encoder token shapes -/

theorem dict_to_toon_nil : dict_to_toon [] = [] := rfl

theorem dict_to_toon_single (kv : List Char × Value) :
    dict_to_toon [kv] = kv.1 ++ ':' :: encode_value kv.2 := rfl

theorem dict_to_toon_cons₂ (kv kv2 : List Char × Value)
    (rest : List (List Char × Value)) :
    dict_to_toon (kv :: kv2 :: rest) =
      (kv.1 ++ ':' :: encode_value kv.2) ++ '|' :: dict_to_toon (kv2 :: rest) := rfl

theorem list_to_toon_nil : list_to_toon [] = [] := rfl

theorem list_to_toon_single (v : Value) : list_to_toon [v] = encode_value v := rfl

theorem list_to_toon_cons₂ (v v2 : Value) (rest : List Value) :
    list_to_toon (v :: v2 :: rest) =
      encode_value v ++ ';' :: list_to_toon (v2 :: rest) := rfl

theorem splitStep_colon {delim : Char} {parts : List (List Char)}
    {cur : List Char} {db dk : Int} (hd : delim = '|' ∨ delim = ';') :
    splitStep delim ⟨parts, cur, db, dk, false, false⟩ ':' =
      ⟨parts, cur ++ [':'], db, dk, false, false⟩ := by
  refine splitStep_plain' (by decide) (by decide) (by decide) (by decide)
    (by decide) (by decide) ?_
  rintro ⟨hc, -, -⟩
  rcases hd with rfl | rfl <;> cases hc

theorem splitStep_sep_deep {delim c : Char} {parts : List (List Char)}
    {cur : List Char} {db dk : Int} (hc : c = '|' ∨ c = ';')
    (hdepth : 1 ≤ db ∨ 1 ≤ dk) :
    splitStep delim ⟨parts, cur, db, dk, false, false⟩ c =
      ⟨parts, cur ++ [c], db, dk, false, false⟩ := by
  refine splitStep_plain' ?_ ?_ ?_ ?_ ?_ ?_ ?_
  · rcases hc with rfl | rfl <;> decide
  · rcases hc with rfl | rfl <;> decide
  · rcases hc with rfl | rfl <;> decide
  · rcases hc with rfl | rfl <;> decide
  · rcases hc with rfl | rfl <;> decide
  · rcases hc with rfl | rfl <;> decide
  · rintro ⟨-, h1, h2⟩
    rcases hdepth with h | h <;> omega

/-- A key of `SafeKey` shape runs through the splitter as plain text. -/
theorem run_safe_key {delim : Char} (hd : delim = '|' ∨ delim = ';')
    {k : List Char} (hk : SafeKey k)
    (parts : List (List Char)) (cur : List Char) (db dk : Int) :
    runSplit delim ⟨parts, cur, db, dk, false, false⟩ k =
      ⟨parts, cur ++ k, db, dk, false, false⟩ := by
  refine run_nonspecial hd k.length k le_rfl (fun c hc => (hk.2.1 c hc).1) ?_
    parts cur db dk
  intro hlast
  exact (hk.2.1 '\\' (List.mem_of_getLast?_eq_some hlast)).2 rfl

theorem run_pairs {delim : Char} (hd : delim = '|' ∨ delim = ';') :
    ∀ (kvs : List (List Char × Value)),
    (∀ kv ∈ kvs, SafeKey kv.1) →
    (∀ kv ∈ kvs, ∀ (parts : List (List Char)) (cur : List Char) (db dk : Int),
      0 ≤ db → 0 ≤ dk →
      runSplit delim ⟨parts, cur, db, dk, false, false⟩ (encode_value kv.2) =
        ⟨parts, cur ++ encode_value kv.2, db, dk, false, false⟩) →
    ∀ (parts : List (List Char)) (cur : List Char) (db dk : Int),
    0 ≤ db → 0 ≤ dk → (1 ≤ db ∨ 1 ≤ dk) →
    runSplit delim ⟨parts, cur, db, dk, false, false⟩ (dict_to_toon kvs) =
      ⟨parts, cur ++ dict_to_toon kvs, db, dk, false, false⟩ := by
  intro kvs
  induction kvs with
  | nil =>
    intro _ _ parts cur db dk _ _ _
    rw [dict_to_toon_nil]
    simp [runSplit]
  | cons kv rest ih =>
    intro hkeys hvals parts cur db dk hdb hdk hdepth
    have hkey := hkeys kv (List.mem_cons_self kv rest)
    have hval := hvals kv (List.mem_cons_self kv rest)
    cases rest with
    | nil =>
      rw [dict_to_toon_single, runSplit_append, run_safe_key hd hkey,
        runSplit_cons, splitStep_colon hd, hval _ _ _ _ hdb hdk]
      congr 1
      simp
    | cons kv2 rest2 =>
      rw [dict_to_toon_cons₂, runSplit_append, runSplit_append,
        run_safe_key hd hkey]
      have hcolon : runSplit delim ⟨parts, cur ++ kv.1, db, dk, false, false⟩
          (':' :: encode_value kv.2) =
          ⟨parts, ((cur ++ kv.1) ++ [':']) ++ encode_value kv.2, db, dk,
            false, false⟩ := by
        rw [runSplit_cons, splitStep_colon hd, hval _ _ _ _ hdb hdk]
      rw [hcolon, runSplit_cons, splitStep_sep_deep (Or.inl rfl) hdepth,
        ih (fun x hx => hkeys x (List.mem_cons_of_mem kv hx))
          (fun x hx => hvals x (List.mem_cons_of_mem kv hx)) _ _ _ _ hdb hdk hdepth]
      congr 1
      simp

theorem run_items {delim : Char} (hd : delim = '|' ∨ delim = ';') :
    ∀ (xs : List Value),
    (∀ v ∈ xs, ∀ (parts : List (List Char)) (cur : List Char) (db dk : Int),
      0 ≤ db → 0 ≤ dk →
      runSplit delim ⟨parts, cur, db, dk, false, false⟩ (encode_value v) =
        ⟨parts, cur ++ encode_value v, db, dk, false, false⟩) →
    ∀ (parts : List (List Char)) (cur : List Char) (db dk : Int),
    0 ≤ db → 0 ≤ dk → (1 ≤ db ∨ 1 ≤ dk) →
    runSplit delim ⟨parts, cur, db, dk, false, false⟩ (list_to_toon xs) =
      ⟨parts, cur ++ list_to_toon xs, db, dk, false, false⟩ := by
  intro xs
  induction xs with
  | nil =>
    intro _ parts cur db dk _ _ _
    rw [list_to_toon_nil]
    simp [runSplit]
  | cons v rest ih =>
    intro hvals parts cur db dk hdb hdk hdepth
    have hval := hvals v (List.mem_cons_self v rest)
    cases rest with
    | nil =>
      rw [list_to_toon_single]
      exact hval _ _ _ _ hdb hdk
    | cons v2 rest2 =>
      rw [list_to_toon_cons₂, runSplit_append, hval _ _ _ _ hdb hdk,
        runSplit_cons, splitStep_sep_deep (Or.inr rfl) hdepth,
        ih (fun x hx => hvals x (List.mem_cons_of_mem v hx)) _ _ _ _ hdb hdk hdepth]
      congr 1
      simp

theorem isDigit_not_special {c : Char} (h : c.isDigit = true) :
    c ∉ SPECIAL_CHARS := by
  intro hmem
  simp only [SPECIAL_CHARS, List.mem_cons, List.not_mem_nil, or_false] at hmem
  rcases hmem with rfl | rfl | rfl | rfl | rfl | rfl | rfl | rfl | rfl | rfl | rfl <;>
    exact absurd h (by decide)

/-- Any encoded safe value is neutral for the splitter: the run from a clean
state at non-negative depths appends the token and leaves the state
unchanged (in particular it never emits a split). -/
theorem tok_neutral {v : Value} (hs : Safe v) :
    ∀ delim, (delim = '|' ∨ delim = ';') →
    ∀ (parts : List (List Char)) (cur : List Char) (db dk : Int),
    0 ≤ db → 0 ≤ dk →
    runSplit delim ⟨parts, cur, db, dk, false, false⟩ (encode_value v) =
      ⟨parts, cur ++ encode_value v, db, dk, false, false⟩ := by
  induction hs with
  | null =>
    intro delim hd parts cur db dk hdb hdk
    rw [encode_value_null]
    exact run_nonspecial hd 4 _ (by decide) (by decide) (by decide) parts cur db dk
  | bool b =>
    intro delim hd parts cur db dk hdb hdk
    rw [encode_value_bool]
    cases b
    · exact run_nonspecial hd 5 _ (by decide) (by decide) (by decide) parts cur db dk
    · exact run_nonspecial hd 4 _ (by decide) (by decide) (by decide) parts cur db dk
  | int n =>
    intro delim hd parts cur db dk hdb hdk
    rw [encode_value_int]
    refine run_nonspecial hd (intChars n).length _ le_rfl ?_ ?_ parts cur db dk
    · intro c hc
      rcases intChars_mem hc with h | rfl
      · exact isDigit_not_special h
      · decide
    · intro hlast
      rcases intChars_mem (List.mem_of_getLast?_eq_some hlast) with h | h
      · exact absurd h (by decide)
      · cases h
  | str s h =>
    intro delim hd parts cur db dk hdb hdk
    rw [encode_value_str]
    by_cases hq : needs_quoting s
    · rw [if_pos hq]
      exact run_quoted s parts cur db dk
    · rw [if_neg hq]
      rw [Bool.not_eq_true] at hq
      obtain ⟨hne, hns⟩ := needs_quoting_false hq
      obtain ⟨-, -, hlast⟩ := h hq
      exact run_nonspecial hd s.length s le_rfl hns hlast parts cur db dk
  | arr xs hmem ih =>
    intro delim hd parts cur db dk hdb hdk
    rw [encode_value_arr, runSplit_cons, splitStep_open_bracket', runSplit_append]
    rw [run_items hd xs (fun x hx => ih x hx delim hd) _ _ _ _ hdb (by omega)
      (Or.inr (by omega))]
    rw [show ([']'] : List Char) = ']' :: [] from rfl, runSplit_cons,
      splitStep_close_bracket']
    show (⟨parts, cur ++ ['['] ++ list_to_toon xs ++ [']'], db, dk + 1 - 1,
      false, false⟩ : SplitState) = _
    congr 1
    · simp
    · omega
  | obj kvs hnd hk hv ih =>
    intro delim hd parts cur db dk hdb hdk
    rw [encode_value_obj, runSplit_cons, splitStep_open_brace', runSplit_append]
    rw [run_pairs hd kvs hk (fun x hx => ih x hx delim hd) _ _ _ _ (by omega) hdk
      (Or.inl (by omega))]
    rw [show (['\x7d'] : List Char) = '\x7d' :: [] from rfl, runSplit_cons,
      splitStep_close_brace']
    show (⟨parts, cur ++ ['\x7b'] ++ dict_to_toon kvs ++ ['\x7d'], db + 1 - 1, dk,
      false, false⟩ : SplitState) = _
    congr 1
    · simp
    · omega

/-! ## Splitting a join of neutral tokens recovers the tokens -/

theorem joinSep_cons₂ (sep : Char) (x y : List Char) (xs : List (List Char)) :
    joinSep sep (x :: y :: xs) = x ++ sep :: joinSep sep (y :: xs) := rfl

theorem run_join {delim : Char} (hd : delim = '|' ∨ delim = ';') :
    ∀ (tokens : List (List Char)), tokens ≠ [] →
    (∀ t ∈ tokens, t ≠ []) →
    (∀ t ∈ tokens, ∀ (parts : List (List Char)) (cur : List Char),
      runSplit delim ⟨parts, cur, 0, 0, false, false⟩ t =
        ⟨parts, cur ++ t, 0, 0, false, false⟩) →
    ∀ parts : List (List Char),
    (if (runSplit delim ⟨parts, [], 0, 0, false, false⟩
          (joinSep delim tokens)).current.isEmpty
     then (runSplit delim ⟨parts, [], 0, 0, false, false⟩
          (joinSep delim tokens)).parts
     else (runSplit delim ⟨parts, [], 0, 0, false, false⟩
          (joinSep delim tokens)).parts ++
        [(runSplit delim ⟨parts, [], 0, 0, false, false⟩
          (joinSep delim tokens)).current]) = parts ++ tokens := by
  intro tokens
  induction tokens with
  | nil => intro h; exact absurd rfl h
  | cons t rest ih =>
    intro _ hne hneutral parts
    cases rest with
    | nil =>
      have hrun := hneutral t (List.mem_cons_self t [])
      rw [show joinSep delim [t] = t from rfl, hrun parts []]
      rw [if_neg (by
        simp only [List.nil_append]
        simp [List.isEmpty_iff, hne t (List.mem_cons_self t [])])]
      simp
    | cons t2 rest2 =>
      rw [joinSep_cons₂, runSplit_append, hneutral t (List.mem_cons_self t _) parts [],
        runSplit_cons]
      rw [show ([] ++ t : List Char) = t from by simp]
      rw [splitStep_delim_split' hd]
      rw [ih (by simp) (fun x hx => hne x (List.mem_cons_of_mem t hx))
        (fun x hx => hneutral x (List.mem_cons_of_mem t hx)) (parts ++ [t])]
      simp

theorem split_toon_pairs_join {delim : Char} (hd : delim = '|' ∨ delim = ';')
    {tokens : List (List Char)} (h0 : tokens ≠ [])
    (hne : ∀ t ∈ tokens, t ≠ [])
    (hneutral : ∀ t ∈ tokens, ∀ (parts : List (List Char)) (cur : List Char),
      runSplit delim ⟨parts, cur, 0, 0, false, false⟩ t =
        ⟨parts, cur ++ t, 0, 0, false, false⟩) :
    split_toon_pairs (joinSep delim tokens) delim = tokens := by
  have h := run_join hd tokens h0 hne hneutral []
  simp only [List.nil_append] at h
  exact h

/-! ## Decoding the encoded tokens back -/

theorem encode_nonempty {v : Value} (hs : Safe v) : encode_value v ≠ [] := by
  cases hs with
  | null => rw [encode_value_null]; simp
  | bool b => rw [encode_value_bool]; cases b <;> simp
  | int n =>
    rw [encode_value_int, intChars_eq]
    split_ifs
    · simp
    · exact natChars_ne_nil _
  | str s h =>
    rw [encode_value_str]
    by_cases hq : needs_quoting s
    · rw [if_pos hq, quote_string_eq]
      simp
    · rw [if_neg hq]
      rw [Bool.not_eq_true] at hq
      exact (needs_quoting_false hq).1
  | arr xs h => rw [encode_value_arr]; simp
  | obj kvs hnd hk hv => rw [encode_value_obj]; simp

theorem encode_has_nonws {v : Value} (hs : Safe v) :
    ∃ c ∈ encode_value v, isPyWs c = false := by
  cases hs with
  | null =>
    refine ⟨'n', ?_, by decide⟩
    rw [encode_value_null]
    decide
  | bool b =>
    cases b
    · refine ⟨'f', ?_, by decide⟩
      rw [encode_value_bool]
      decide
    · refine ⟨'t', ?_, by decide⟩
      rw [encode_value_bool]
      decide
  | int n =>
    cases h : intChars n with
    | nil => exact absurd h (intChars_ne_nil n)
    | cons c t =>
      refine ⟨c, ?_, ?_⟩
      · rw [encode_value_int, h]
        exact List.mem_cons_self c t
      · rcases intChars_mem (h ▸ List.mem_cons_self c t) with hdig | rfl
        · exact isDigit_not_ws hdig
        · decide
  | str s h =>
    rw [encode_value_str]
    by_cases hq : needs_quoting s
    · refine ⟨'"', ?_, by decide⟩
      rw [if_pos hq, quote_string_eq]
      exact List.mem_cons_self _ _
    · rw [if_neg hq]
      rw [Bool.not_eq_true] at hq
      obtain ⟨-, hstrip, -⟩ := h hq
      obtain ⟨hne, -⟩ := needs_quoting_false hq
      cases hs : s with
      | nil => exact absurd hs hne
      | cons c t =>
        refine ⟨c, List.mem_cons_self c t, ?_⟩
        rw [hs] at hstrip
        exact pyStrip_head_not_ws hstrip
  | arr xs h =>
    refine ⟨'[', ?_, by decide⟩
    rw [encode_value_arr]
    exact List.mem_cons_self _ _
  | obj kvs hnd hk hv =>
    refine ⟨'\x7b', ?_, by decide⟩
    rw [encode_value_obj]
    exact List.mem_cons_self _ _

theorem pairKV_enc {k : List Char} (hk : SafeKey k) (e : List Char) :
    pairKV (k ++ ':' :: e) = some (k, e) := by
  unfold pairKV
  rw [splitAtFirst_not_mem
    (fun hmem => absurd (by decide : (':' : Char) ∈ SPECIAL_CHARS)
      (hk.2.1 ':' hmem).1)]
  simp only [hk.2.2]
  rw [if_neg (by simp [List.isEmpty_iff, hk.1])]

theorem upsert_not_mem {k : List Char} {v : Value}
    {acc : List (List Char × Value)} (h : k ∉ acc.map Prod.fst) :
    upsert k v acc = acc ++ [(k, v)] := by
  induction acc with
  | nil => rfl
  | cons kv rest ih =>
    simp only [List.map_cons, List.mem_cons, not_or] at h
    rw [upsert, if_neg (fun e => h.1 e.symm), ih h.2]
    simp

theorem buildDict_someMap : ∀ (kvs : List (List Char × Value))
    (acc : List (List Char × Value)),
    (∀ kv ∈ kvs, kv.1 ∉ acc.map Prod.fst) →
    (kvs.map Prod.fst).Nodup →
    (kvs.map some).foldl
      (fun acc o => match o with | none => acc | some kv => upsert kv.1 kv.2 acc)
      acc = acc ++ kvs := by
  intro kvs
  induction kvs with
  | nil => intro acc _ _; simp
  | cons kv rest ih =>
    intro acc hdisj hnd
    simp only [List.map_cons, List.foldl_cons]
    have hstep : upsert kv.1 kv.2 acc = acc ++ [(kv.1, kv.2)] :=
      upsert_not_mem (hdisj kv (List.mem_cons_self kv rest))
    rw [hstep]
    simp only [List.map_cons, List.nodup_cons] at hnd
    rw [ih (acc ++ [(kv.1, kv.2)]) ?_ hnd.2]
    · simp
    · intro x hx
      simp only [List.map_append, List.mem_append, List.map_cons, List.map_nil,
        List.mem_singleton, not_or]
      refine ⟨hdisj x (List.mem_cons_of_mem kv hx), ?_⟩
      intro he
      exact hnd.1 (he ▸ List.mem_map_of_mem Prod.fst hx)

theorem buildDict_eq {kvs : List (List Char × Value)}
    (hnd : (kvs.map Prod.fst).Nodup) :
    buildDict (kvs.map some) = kvs := by
  unfold buildDict
  rw [buildDict_someMap kvs [] (by simp) hnd]
  simp

/-- A `key:value` pair token of safe shape is neutral for the splitter. -/
theorem pair_token_neutral {delim : Char} (hd : delim = '|' ∨ delim = ';')
    {k : List Char} (hk : SafeKey k) {v : Value} (hs : Safe v) :
    ∀ (parts : List (List Char)) (cur : List Char),
    runSplit delim ⟨parts, cur, 0, 0, false, false⟩ (k ++ ':' :: encode_value v) =
      ⟨parts, cur ++ (k ++ ':' :: encode_value v), 0, 0, false, false⟩ := by
  intro parts cur
  rw [runSplit_append, run_safe_key hd hk, runSplit_cons, splitStep_colon hd,
    tok_neutral hs delim hd _ _ _ _ le_rfl le_rfl]
  congr 1
  simp

/-- Decoding an encoded dict body recovers the association list, given safe
keys and per-value decode correctness. -/
theorem toon_to_dict_enc (kvs : List (List Char × Value))
    (hnd : (kvs.map Prod.fst).Nodup)
    (hk : ∀ kv ∈ kvs, SafeKey kv.1)
    (hv : ∀ kv ∈ kvs, Safe kv.2)
    (hdec : ∀ kv ∈ kvs, decode_value (encode_value kv.2) = kv.2) :
    toon_to_dict (dict_to_toon kvs) = kvs := by
  cases kvs with
  | nil => rfl
  | cons kv rest =>
    rw [toon_to_dict_eq]
    have hcolon : (':' : Char) ∈ dict_to_toon (kv :: rest) := by
      cases rest with
      | nil =>
        rw [dict_to_toon_single]
        exact List.mem_append_right _ (List.mem_cons_self _ _)
      | cons kv2 rest2 =>
        rw [dict_to_toon_cons₂]
        exact List.mem_append_left _
          (List.mem_append_right _ (List.mem_cons_self _ _))
    rw [if_neg (by
      simp only [List.isEmpty_iff]
      exact pyStrip_ne_nil hcolon (by decide))]
    have hsplit : split_toon_pairs (dict_to_toon (kv :: rest)) '|' =
        (kv :: rest).map (fun p => p.1 ++ ':' :: encode_value p.2) := by
      apply split_toon_pairs_join (Or.inl rfl) (by simp)
      · intro t ht
        obtain ⟨p, hp, rfl⟩ := List.mem_map.1 ht
        simp
      · intro t ht
        obtain ⟨p, hp, rfl⟩ := List.mem_map.1 ht
        exact pair_token_neutral (Or.inl rfl) (hk p hp) (hv p hp)
    rw [hsplit, List.map_map]
    have hmap : (kv :: rest).map
        ((fun pair =>
          match pairKV pair with
          | none => none
          | some kv => some (kv.1, decode_value kv.2)) ∘
          (fun p => p.1 ++ ':' :: encode_value p.2)) = (kv :: rest).map some := by
      apply List.map_congr_left
      intro p hp
      simp only [Function.comp]
      rw [pairKV_enc (hk p hp)]
      simp only
      rw [hdec p hp]
    rw [hmap]
    exact buildDict_eq hnd

/-- Decoding an encoded list body recovers the elements, given safe elements
and per-element decode correctness. -/
theorem toon_to_list_enc (xs : List Value)
    (hx : ∀ v ∈ xs, Safe v)
    (hdec : ∀ v ∈ xs, decode_value (encode_value v) = v) :
    toon_to_list (list_to_toon xs) = xs := by
  cases xs with
  | nil => rfl
  | cons v rest =>
    rw [toon_to_list_eq]
    obtain ⟨c, hc, hcw⟩ := encode_has_nonws (hx v (List.mem_cons_self v rest))
    have hcmem : c ∈ list_to_toon (v :: rest) := by
      cases rest with
      | nil => exact hc
      | cons v2 rest2 =>
        rw [list_to_toon_cons₂]
        exact List.mem_append_left _ hc
    rw [if_neg (by
      simp only [List.isEmpty_iff]
      exact pyStrip_ne_nil hcmem hcw)]
    have hsplit : split_toon_pairs (list_to_toon (v :: rest)) ';' =
        (v :: rest).map encode_value := by
      apply split_toon_pairs_join (Or.inr rfl) (by simp)
      · intro t ht
        obtain ⟨x, hx2, rfl⟩ := List.mem_map.1 ht
        exact encode_nonempty (hx x hx2)
      · intro t ht
        obtain ⟨x, hx2, rfl⟩ := List.mem_map.1 ht
        exact fun parts cur =>
          tok_neutral (hx x hx2) ';' (Or.inr rfl) parts cur 0 0 le_rfl le_rfl
    rw [hsplit]
    have hfilter : ((v :: rest).map encode_value).filter
        (fun item => !(pyStrip item).isEmpty) = (v :: rest).map encode_value := by
      apply List.filter_eq_self.2
      intro t ht
      obtain ⟨x, hx2, rfl⟩ := List.mem_map.1 ht
      obtain ⟨d, hd, hdw⟩ := encode_has_nonws (hx x hx2)
      simp only [Bool.not_eq_true', List.isEmpty_eq_false, ne_eq]
      exact pyStrip_ne_nil hd hdw
    rw [hfilter, List.map_map]
    have hmap : (v :: rest).map (decode_value ∘ encode_value) =
        (v :: rest).map id := by
      apply List.map_congr_left
      intro x hx2
      exact hdec x hx2
    rw [hmap, List.map_id]

theorem pyStrip_wrap {a b : Char} (ha : isPyWs a = false) (hb : isPyWs b = false)
    (inner : List Char) : pyStrip (a :: (inner ++ [b])) = a :: (inner ++ [b]) := by
  apply pyStrip_eq_self
  · intro c hc
    simp only [List.head?_cons, Option.some.injEq] at hc
    subst hc
    exact ha
  · intro c hc
    rw [show a :: (inner ++ [b]) = (a :: inner) ++ [b] from rfl,
      List.getLast?_concat] at hc
    injection hc with hc
    subst hc
    exact hb

theorem getLast?_wrap (a b : Char) (inner : List Char) :
    (a :: (inner ++ [b])).getLast? = some b := by
  rw [show a :: (inner ++ [b]) = (a :: inner) ++ [b] from rfl,
    List.getLast?_concat]

theorem drop_dropLast_wrap (a b : Char) (inner : List Char) :
    ((a :: (inner ++ [b])).drop 1).dropLast = inner := by
  simp only [List.drop_succ_cons, List.drop_zero]
  exact List.dropLast_concat

/-- Encoded safe values never end in Python whitespace. -/
theorem encode_last_not_ws {v : Value} (hs : Safe v) :
    ∀ c, (encode_value v).getLast? = some c → isPyWs c = false := by
  cases hs with
  | null =>
    intro c hc
    rw [encode_value_null] at hc
    rw [show ("null".data).getLast? = some 'l' from rfl] at hc
    injection hc with hc
    subst hc
    decide
  | bool b =>
    intro c hc
    rw [encode_value_bool] at hc
    cases b
    · rw [show (if false then "true".data else "false".data).getLast? = some 'e'
        from rfl] at hc
      injection hc with hc
      subst hc
      decide
    · rw [show (if true then "true".data else "false".data).getLast? = some 'e'
        from rfl] at hc
      injection hc with hc
      subst hc
      decide
  | int n =>
    intro c hc
    rw [encode_value_int] at hc
    rcases intChars_mem (List.mem_of_getLast?_eq_some hc) with h | rfl
    · exact isDigit_not_ws h
    · decide
  | str s h =>
    intro c hc
    rw [encode_value_str] at hc
    by_cases hq : needs_quoting s
    · rw [if_pos hq, quote_getLast] at hc
      injection hc with hc
      subst hc
      decide
    · rw [if_neg hq] at hc
      rw [Bool.not_eq_true] at hq
      obtain ⟨-, hstrip, -⟩ := h hq
      exact pyStrip_last_not_ws hstrip hc
  | arr xs h =>
    intro c hc
    rw [encode_value_arr, getLast?_wrap] at hc
    injection hc with hc
    subst hc
    decide
  | obj kvs hnd hk hv =>
    intro c hc
    rw [encode_value_obj, getLast?_wrap] at hc
    injection hc with hc
    subst hc
    decide

/-- Decoding inverts encoding on safe values. -/
theorem decode_encode {v : Value} (hs : Safe v) :
    decode_value (encode_value v) = v := by
  induction hs with
  | null =>
    rw [encode_value_null]
    rfl
  | bool b =>
    rw [encode_value_bool]
    cases b <;> rfl
  | int n =>
    rw [encode_value_int]
    exact decode_value_intChars n
  | str s h =>
    rw [encode_value_str]
    by_cases hq : needs_quoting s
    · rw [if_pos hq]
      exact decode_value_quote s
    · rw [if_neg hq]
      rw [Bool.not_eq_true] at hq
      exact (h hq).1
  | arr xs hmem ih =>
    rw [encode_value_arr, decode_value_eq]
    simp only [pyStrip_wrap (show isPyWs '[' = false from by decide)
      (show isPyWs ']' = false from by decide)]
    rw [if_neg (by simp)]
    rw [if_neg (head_ne (by simp only [List.head?_cons]; decide))]
    rw [if_neg (head_ne (by simp only [List.head?_cons]; decide))]
    rw [if_neg (head_ne (by simp only [List.head?_cons]; decide))]
    rw [if_neg (fun hc => absurd hc.1 (by simp [startsWithC]))]
    rw [if_neg (fun hc => absurd hc.1 (by simp [startsWithC]))]
    rw [if_pos ⟨by simp [startsWithC], by simp only [endsWithC, getLast?_wrap]; decide⟩]
    rw [drop_dropLast_wrap]
    rw [toon_to_list_enc xs hmem ih]
  | obj kvs hnd hk hv ih =>
    rw [encode_value_obj, decode_value_eq]
    simp only [pyStrip_wrap (show isPyWs '\x7b' = false from by decide)
      (show isPyWs '\x7d' = false from by decide)]
    rw [if_neg (by simp)]
    rw [if_neg (head_ne (by simp only [List.head?_cons]; decide))]
    rw [if_neg (head_ne (by simp only [List.head?_cons]; decide))]
    rw [if_neg (head_ne (by simp only [List.head?_cons]; decide))]
    rw [if_neg (fun hc => absurd hc.1 (by simp [startsWithC]))]
    rw [if_pos ⟨by simp [startsWithC], by simp only [endsWithC, getLast?_wrap]; decide⟩]
    rw [drop_dropLast_wrap]
    rw [toon_to_dict_enc kvs hnd hk hv ih]

theorem getLast?_append_right {l1 l2 : List Char} (h : l2 ≠ []) :
    (l1 ++ l2).getLast? = l2.getLast? := by
  induction l1 with
  | nil => rfl
  | cons a t ih =>
    rw [List.cons_append, getLast?_cons_of_ne (by
      intro he
      exact h (List.append_eq_nil.1 he).2), ih]

theorem dict_to_toon_ne_nil (kv : List Char × Value)
    (rest : List (List Char × Value)) : dict_to_toon (kv :: rest) ≠ [] := by
  cases rest with
  | nil => rw [dict_to_toon_single]; simp
  | cons kv2 rest2 => rw [dict_to_toon_cons₂]; simp

/-- The encoded dict body of safe pairs never ends in whitespace. -/
theorem dict_last_not_ws : ∀ (kvs : List (List Char × Value)), kvs ≠ [] →
    (∀ kv ∈ kvs, Safe kv.2) →
    ∀ c, (dict_to_toon kvs).getLast? = some c → isPyWs c = false := by
  intro kvs
  induction kvs with
  | nil => intro h; exact absurd rfl h
  | cons kv rest ih =>
    intro _ hv c hc
    cases rest with
    | nil =>
      rw [dict_to_toon_single] at hc
      have henc := encode_nonempty (hv kv (List.mem_cons_self kv []))
      rw [getLast?_append_right (by simp), getLast?_cons_of_ne henc] at hc
      exact encode_last_not_ws (hv kv (List.mem_cons_self kv [])) c hc
    | cons kv2 rest2 =>
      rw [dict_to_toon_cons₂] at hc
      rw [getLast?_append_right (by simp),
        getLast?_cons_of_ne (dict_to_toon_ne_nil kv2 rest2)] at hc
      exact ih (by simp) (fun x hx => hv x (List.mem_cons_of_mem kv hx)) c hc

/-- The encoded dict body of a nonempty safe association list starts with the
first character of the first key: a non-whitespace, non-reserved character. -/
theorem dict_head {kv : List Char × Value} {rest : List (List Char × Value)}
    (hk : SafeKey kv.1) :
    ∃ c, (dict_to_toon (kv :: rest)).head? = some c ∧ isPyWs c = false ∧
      c ∉ SPECIAL_CHARS := by
  obtain ⟨c, k2, hkeq⟩ : ∃ c k2, kv.1 = c :: k2 := by
    cases hkk : kv.1 with
    | nil => exact absurd hkk hk.1
    | cons c k2 => exact ⟨c, k2, rfl⟩
  have hstripk := hk.2.2
  rw [hkeq] at hstripk
  have hcw : isPyWs c = false := pyStrip_head_not_ws hstripk
  have hcs : c ∉ SPECIAL_CHARS := (hk.2.1 c (hkeq ▸ List.mem_cons_self c k2)).1
  refine ⟨c, ?_, hcw, hcs⟩
  cases rest with
  | nil => rw [dict_to_toon_single, hkeq]; rfl
  | cons kv2 rest2 => rw [dict_to_toon_cons₂, hkeq]; rfl

/-- The encoded dict body of safe pairs is unchanged by `strip`. -/
theorem pyStrip_dict {kv : List Char × Value} {rest : List (List Char × Value)}
    (hk : SafeKey kv.1) (hv : ∀ x ∈ kv :: rest, Safe x.2) :
    pyStrip (dict_to_toon (kv :: rest)) = dict_to_toon (kv :: rest) := by
  apply pyStrip_eq_self
  · intro c hc
    obtain ⟨c0, hc0, hw, -⟩ := @dict_head kv rest hk
    rw [hc0] at hc
    injection hc with hc
    subst hc
    exact hw
  · intro c hc
    exact dict_last_not_ws (kv :: rest) (by simp) hv c hc

/-- C1, amended.  The round-trip `toon_to_json (json_to_toon v) = v` holds for
every top-level **object** whose keys are safe (nonempty, free of reserved
characters and backslash, strip-invariant, duplicate-free at each level) and
whose values are safe: null, booleans, integers, strings (quoted automatically
when they contain reserved characters; a bare string must decode to itself and
not end in a backslash), and nested arrays/objects of such values.  It does
not hold for all values: a top-level array decodes as an object
(see the counterexample theorem), and floats are outside this embedding. -/
theorem C1_roundtrip {kvs : List (List Char × Value)}
    (hs : Safe (.obj kvs)) :
    toon_to_json (json_to_toon (.obj kvs)) = .obj kvs := by
  cases hs with
  | obj kvs hnd hk hv =>
    show toon_to_json (dict_to_toon kvs) = .obj kvs
    cases kvs with
    | nil => rfl
    | cons kv rest =>
      unfold toon_to_json
      have hstrip := pyStrip_dict (hk kv (List.mem_cons_self kv rest)) hv
      simp only [hstrip]
      obtain ⟨c0, hc0, -, hcs⟩ := @dict_head kv rest
        (hk kv (List.mem_cons_self kv rest))
      have hnotbrk : ¬(startsWithC '[' (dict_to_toon (kv :: rest)) = true ∧
          endsWithC ']' (dict_to_toon (kv :: rest)) = true) := by
        intro h
        have h1 := h.1
        simp only [startsWithC, decide_eq_true_eq] at h1
        rw [hc0] at h1
        injection h1 with h1
        subst h1
        exact hcs (by decide)
      have hnotbrc : ¬(startsWithC '\x7b' (dict_to_toon (kv :: rest)) = true ∧
          endsWithC '\x7d' (dict_to_toon (kv :: rest)) = true) := by
        intro h
        have h1 := h.1
        simp only [startsWithC, decide_eq_true_eq] at h1
        rw [hc0] at h1
        injection h1 with h1
        subst h1
        exact hcs (by decide)
      rw [if_neg hnotbrk, if_neg hnotbrc]
      exact congrArg Value.obj
        (toon_to_dict_enc _ hnd hk hv (fun x hx => decode_encode (hv x hx)))

/-- Witness for the amended round-trip: an object with a quoted string value
(reserved character inside), a bare string value, and a nested array. -/
theorem C1_roundtrip_witness :
    toon_to_json (json_to_toon (Value.obj
      [("name".data, Value.str ("a|b".data)),
       ("vendor".data, Value.str ("Dell".data)),
       ("tags".data, Value.arr [Value.int 1, Value.int 2])])) =
    Value.obj
      [("name".data, Value.str ("a|b".data)),
       ("vendor".data, Value.str ("Dell".data)),
       ("tags".data, Value.arr [Value.int 1, Value.int 2])] := by
  apply C1_roundtrip
  refine Safe.obj _ (by decide) ?_ ?_
  · intro kv hkv
    simp only [List.mem_cons, List.not_mem_nil, or_false] at hkv
    rcases hkv with rfl | rfl | rfl <;>
      exact ⟨by decide, by decide, by decide⟩
  intro kv hkv
  simp only [List.mem_cons, List.not_mem_nil, or_false] at hkv
  rcases hkv with rfl | rfl | rfl
  · exact Safe.str _ (fun h => absurd h (by decide))
  · exact Safe.str _ (fun _ => ⟨rfl, rfl, by decide⟩)
  · refine Safe.arr _ ?_
    intro x hx
    simp only [List.mem_cons, List.not_mem_nil, or_false] at hx
    rcases hx with rfl | rfl
    · exact Safe.int 1
    · exact Safe.int 2
